import Mathlib

/-!
Verification of the rusty-junkcode SPV proof-length simulator.

Shallow embedding of the C sources:
  * `src/test-trees.c`   : topology oracles and the two chain-simulation modes
  * `src/spv.c`          : the generic hop-count dynamic program
  * `src/incremental-proof-tree.c` : the incremental path accumulator
  * `src/maakutree.c`    : the incremental self-balancing "maaku" tree

Machine integers (`size_t`, `uint64_t`, `int`) are modelled as `Nat`; the
values manipulated by the programs stay far below 2^64, and wherever a
sentinel (`-1ULL`, `(unsigned)-1`) or an overflow could matter we keep the
exact constant (`2^64 - 1`, `2^32 - 1`) and, where needed, carry explicit
bound hypotheses.
-/

/-- Bit-length worker with explicit fuel (the first argument), so that the
kernel can evaluate it; any fuel `≥ v` gives the bit length of `v`. -/
def ilog32A : Nat → Nat → Nat
  | 0, _ => 0
  | fuel+1, v => if v = 0 then 0 else ilog32A fuel (v / 2) + 1

/-- ccan/ilog `ilog32`: number of bits needed to represent `v`;
`⌊log2 v⌋ + 1` for `v ≥ 1`, and `0` for `v = 0`. -/
def ilog32 (v : Nat) : Nat := ilog32A v v

theorem ilog32A_zero (fuel : Nat) : ilog32A fuel 0 = 0 := by
  cases fuel <;> simp [ilog32A]

theorem ilog32A_eq_log {fuel v : Nat} (hv : v ≠ 0) (hf : v ≤ fuel) :
    ilog32A fuel v = Nat.log 2 v + 1 := by
  induction fuel generalizing v with
  | zero => omega
  | succ fuel ih =>
    simp only [ilog32A, if_neg hv]
    rcases Nat.lt_or_ge v 2 with h2 | h2
    · have hv1 : v = 1 := by omega
      subst hv1
      simp [ilog32A_zero, Nat.log_one_right]
    · have hd0 : 0 < v / 2 := Nat.div_pos h2 (by omega)
      have hd : v / 2 ≠ 0 := by omega
      have hlt : v / 2 < v := Nat.div_lt_self (by omega) (by omega)
      have hdf : v / 2 ≤ fuel := by omega
      rw [ih hd hdf]
      have hlog : Nat.log 2 (v / 2) = Nat.log 2 v - 1 := Nat.log_div_base 2 v
      have hpos : 0 < Nat.log 2 v := Nat.log_pos (by omega) h2
      omega

/-- `ilog32` agrees with `⌊log2 v⌋ + 1` on positive input. -/
theorem ilog32_eq_log {v : Nat} (hv : v ≠ 0) : ilog32 v = Nat.log 2 v + 1 :=
  ilog32A_eq_log hv le_rfl

/-- `prooflen_for_internal_node` (test-trees.c:30-35, incremental-proof-tree.c:114-119):
1 hash at depth 0, `(depth-1)*2+1` otherwise. -/
def prooflen_for_internal_node (depth : Nat) : Nat :=
  if depth = 0 then 1 else (depth - 1) * 2 + 1

/-- `optimal_proof_len` (test-trees.c:51-56): breadth-first ideal oracle. -/
def optimal_proof_len (fr tgt : Nat) : Nat :=
  prooflen_for_internal_node (ilog32 (fr - tgt))

/-- `breadth_proof_len` (incremental-proof-tree.c:135-140); identical formula
to `optimal_proof_len`, phrased over a path array of length `num_prevs`. -/
def breadth_proof_len (num_prevs tgt : Nat) : Nat :=
  prooflen_for_internal_node (ilog32 (num_prevs - tgt))

/-- `do_proof_len` (test-trees.c:69-83, incremental-proof-tree.c:40-54) with
explicit fuel so the kernel can evaluate it: the range `stop - start`
strictly shrinks at every recursive call, so any fuel `≥ stop - start`
yields the C function's value.  The C guard is `end - start == 1`; callers
guarantee `start < end`, so the `≤ 1` guard agrees with the C on every
reachable input. -/
def do_proof_lenA : Nat → Nat → Nat → Nat → Nat
  | 0, _, _, _ => 0
  | fuel+1, tgt, start, stop =>
    if stop - start ≤ 1 then 0
    else if tgt < start + 2 ^ (ilog32 (stop - start - 1) - 1) then
      1 + do_proof_lenA fuel tgt start (start + 2 ^ (ilog32 (stop - start - 1) - 1))
    else
      1 + do_proof_lenA fuel tgt (start + 2 ^ (ilog32 (stop - start - 1) - 1)) stop

/-- `do_proof_len`, fuelled with the full range size. -/
def do_proof_len (tgt start stop : Nat) : Nat :=
  do_proof_lenA (stop - start) tgt start stop

/-- `rfc6962_proof_len` (test-trees.c:85-88). -/
def rfc6962_proof_len (fr tgt : Nat) : Nat := do_proof_len tgt 0 fr

/-- `__builtin_popcount` worker (fuel-driven so the kernel can evaluate;
any fuel `≥ n` gives the binary digit sum of `n`). -/
def popcountA : Nat → Nat → Nat
  | 0, _ => 0
  | fuel+1, n => if n = 0 then 0 else popcountA fuel (n / 2) + n % 2

/-- `__builtin_popcount` on the block count. -/
def popcount (n : Nat) : Nat := popcountA n n

/-- The descending peak-location loop of `mmr_variant_proof_len`
(test-trees.c:206-230) and `mmr_proof_len` (incremental-proof-tree.c:93-111):
`n` is the number of low-order bit positions still to scan (the C starts at
bit 63 and breaks with the current `i`); returns `(peaknum, i)`.  When
`to < from` the loop always breaks, so the fuel-exhausted case is
unreachable. -/
def mmr_peak_loop (fr tgt : Nat) : Nat → Nat → Nat → Nat × Nat
  | 0, _off, pk => (pk, 0)
  | n+1, off, pk =>
    if Nat.testBit fr n then
      (if tgt < off + 2 ^ n then (pk, n)
       else mmr_peak_loop fr tgt n (off + 2 ^ n) (pk + 1))
    else mmr_peak_loop fr tgt n off pk

/-- `mmr_proof_len` (test-trees.c:232-235, non-linear variant; same code as
incremental-proof-tree.c:93-111): connect the peaks with RFC6962, plus the
depth inside the peak. -/
def mmr_proof_len (fr tgt : Nat) : Nat :=
  let r := mmr_peak_loop fr tgt 64 0 0
  rfc6962_proof_len (popcount fr) r.1 + r.2

/-- `struct cache` (test-trees.c:13-16). -/
structure CacheEntry where
  blocknum : Nat
  skip : Nat
deriving DecidableEq

/-- `struct huff_info` (test-trees.c:267-270); `depth_of_node` is a `size_t`
holding `-1` (= `2^64-1`) as the "target not here" sentinel. -/
structure HuffInfo where
  total_skips : Nat
  depth_of_node : Nat
deriving DecidableEq

/-- `-1ULL` / `(size_t)-1`. -/
def U64MAX : Nat := 2 ^ 64 - 1

/-- `(unsigned int)-1`, the initial value of `prooflen[i].len[s]`. -/
def U32MAX : Nat := 2 ^ 32 - 1

/-- `insert_huff`'s scan (test-trees.c:272-280): insert `comb` in front of
the first entry whose `total_skips` is not greater.  The C shifts inside a
fixed window and the caller then shrinks the window by one, which amounts to
inserting into the list with the last two (just-merged) entries removed;
`huff_step` below applies it that way. -/
def insert_huff (comb : HuffInfo) : List HuffInfo → List HuffInfo
  | [] => [comb]
  | x :: xs =>
    if x.total_skips > comb.total_skips then x :: insert_huff comb xs
    else comb :: x :: xs

/-- One iteration of the merge loop of `get_huffman_depth`
(test-trees.c:298-312): combine the two smallest (last) entries. -/
def huff_step (l : List HuffInfo) : List HuffInfo :=
  match l.reverse with
  | a :: b :: rest =>
    let comb : HuffInfo :=
      ⟨b.total_skips + a.total_skips,
       if a.depth_of_node = U64MAX then
         (if b.depth_of_node = U64MAX then U64MAX else 1 + b.depth_of_node)
       else 1 + a.depth_of_node⟩
    insert_huff comb rest.reverse
  | _ => l

/-- The `while (cachesize > 1)` loop, with the decrementing `cachesize` as
fuel. -/
def huff_loop : Nat → List HuffInfo → List HuffInfo
  | 0, l => l
  | n+1, l => if l.length ≤ 1 then l else huff_loop n (huff_step l)

/-- `get_huffman_depth` (test-trees.c:282-315). -/
def get_huffman_depth (c : List CacheEntry) (cachesize blocknum : Nat) : Nat :=
  let info := (c.take cachesize).map (fun e =>
    HuffInfo.mk e.skip (if e.blocknum = blocknum then 0 else U64MAX))
  ((huff_loop cachesize info).headD ⟨0, U64MAX⟩).depth_of_node

/-- `mmr_cache_proof_len` (test-trees.c:326-349).  The C returns at the
first cache hit; since the returned value does not depend on the hit index,
an existence test (`List.any`) is equivalent. -/
def mmr_cache_proof_len (fr tgt : Nat) (c : List CacheEntry)
    (cachesize : Nat) (huffman : Bool) : Nat :=
  if fr < cachesize * 2 then mmr_proof_len fr tgt
  else if (c.take cachesize).any (fun e => e.blocknum == tgt) then
    (if huffman then 1 + get_huffman_depth c cachesize tgt
     else 1 + ilog32 cachesize)
  else 1 + mmr_proof_len fr tgt

/-- `init_cache` (test-trees.c:242-248): 64 zeroed entries. -/
def init_cache : List CacheEntry := List.replicate 64 ⟨0, 0⟩

/-- The insertion scan of `add_to_cache` (test-trees.c:258-263): keep
entries while their skip is `≥` the new one, insert before the first
smaller entry. -/
def cache_insert (skip blocknum : Nat) : List CacheEntry → List CacheEntry
  | [] => [⟨blocknum, skip⟩]
  | e :: rest =>
    if e.skip ≥ skip then e :: cache_insert skip blocknum rest
    else ⟨blocknum, skip⟩ :: e :: rest

/-- `add_to_cache` (test-trees.c:250-264): capacity-64 descending insert. -/
def add_to_cache (c : List CacheEntry) (skip blocknum : Nat) : List CacheEntry :=
  if skip ≤ (c.getD 63 ⟨0, 0⟩).skip then c
  else (cache_insert skip blocknum c).take 64

/-- Skip derivation shared by all three simulators
(test-trees.c:416-420, spv.c:26-30, incremental-proof-tree.c:282-284):
`skip = -1ULL / hash`, capped at `i`. -/
def skipOf (hash i : Nat) : Nat := min (U64MAX / hash) i

/-- Downward `for (j = hi; j >= lo; j--)` fold: applies `f` at
`lo+c-1, …, lo+1, lo`. -/
def foldDown {α : Type} (f : Nat → α → α) (lo : Nat) : Nat → α → α
  | 0, a => a
  | c+1, a => foldDown f lo c (f (lo + c) a)

/-- Upward `for (j = 0; j < n; j++)` fold: applies `f` at
`lo, lo+1, …, lo+c-1`. -/
def foldUp {α : Type} (f : Nat → α → α) (lo : Nat) : Nat → α → α
  | 0, a => a
  | c+1, a => foldUp f (lo + 1) c (f lo a)

/-- The inner scan of `main` in spv.c:32-39: start from the one-step
candidate `(dist[i-1]+1, i-1)` and scan `j` from `i-1` down to `i-skip`,
updating on a strict improvement of the cost `1 + dist[j]`. -/
def spv_scan (dist : List Nat) (i skip : Nat) : Nat × Nat :=
  foldDown
    (fun j acc => if 1 + dist.getD j 0 < acc.1 then (1 + dist.getD j 0, j) else acc)
    (i - skip) skip (dist.getD (i - 1) 0 + 1, i - 1)

/-- State of spv.c's dynamic program after blocks `1..n`: the `dist` and
`next_step` arrays (spv.c:20-56; `dist[0] = 0` and `next_step[0]` unused,
kept as 0).  `h i` is the i-th value of the seeded 64-bit stream.  The
diagnostic `cache` array of spv.c:44-55 only feeds an assert and never the
`dist`/`next_step` values, so it is not modelled. -/
def spvRun (h : Nat → Nat) : Nat → List Nat × List Nat
  | 0 => ([0], [0])
  | i+1 =>
    let s := spvRun h i
    let skip := skipOf (h (i+1)) (i+1)
    let bn := spv_scan s.1 (i+1) skip
    (s.1 ++ [bn.1], s.2 ++ [bn.2])

/-- The inner scan of `print_proof_lengths` (test-trees.c:423-426): `best`
is an *index*, initially `i-1`, replaced by `j` when
`1 + dist[j] < dist[best]` (note: compared against `dist[best]`, not
`dist[best] + 1`). -/
def tt_scan (dist : List Nat) (i skip : Nat) : Nat :=
  foldDown
    (fun j best => if 1 + dist.getD j 0 < dist.getD best 0 then j else best)
    (i - skip) skip (i - 1)

/-- State of `print_proof_lengths`'s generic hop-count DP after blocks
`target+1 .. n` (test-trees.c:402-429): the `dist` and `step` arrays, both
`calloc`ed to zero, with indices `≤ target` never written.  The `cache`
updated at test-trees.c:421 never feeds `dist`/`step` (it is only passed to
the style oracles in the later reporting walk), so it is not part of this
state. -/
def ttRun (h : Nat → Nat) (t : Nat) : Nat → List Nat × List Nat
  | 0 => ([0], [0])
  | i+1 =>
    let s := ttRun h t i
    if i+1 ≤ t then (s.1 ++ [0], s.2 ++ [0])
    else
      let skip := skipOf (h (i+1)) (i+1)
      let best := tt_scan s.1 (i+1) skip
      (s.1 ++ [s.1.getD best 0 + 1], s.2 ++ [best])

/-- The inner scan of `print_optimal_length` for one style
(test-trees.c:481-489): `prooflen[i].len[s]` starts at `(unsigned)-1` and
takes the minimum of `len + prooflen[j].len[s]` over the window. -/
def opt_scan (lenf : Nat → Nat → List CacheEntry → Nat) (pl : List Nat)
    (cache : List CacheEntry) (i skip : Nat) : Nat :=
  foldDown
    (fun j best =>
      if lenf i j cache + pl.getD j 0 < best then lenf i j cache + pl.getD j 0
      else best)
    (i - skip) skip U32MAX

/-- State of `print_optimal_length` after blocks `target+1 .. n` for a
single fast style with oracle `lenf` (test-trees.c:456-490): the per-block
optimal proof length array and the evolving cache. -/
def optRun (lenf : Nat → Nat → List CacheEntry → Nat) (h : Nat → Nat)
    (t : Nat) : Nat → List Nat × List CacheEntry
  | 0 => ([0], init_cache)
  | i+1 =>
    let s := optRun lenf h t i
    if i+1 ≤ t then (s.1 ++ [0], s.2)
    else
      let skip := skipOf (h (i+1)) (i+1)
      let cache := add_to_cache s.2 skip (i+1)
      (s.1 ++ [opt_scan lenf s.1 cache (i+1) skip], cache)

/-- `struct path` (incremental-proof-tree.c:12-15). -/
structure PathE where
  blocknum : Nat
  num_hashes : Nat
deriving DecidableEq

/-- `struct block` (incremental-proof-tree.c:17-26).  `num_prevs` is
`prevs.length` for every block the simulation builds after genesis; genesis
has `num_prevs = 0` but one zeroed allocated entry, which we keep in
`prevs` since `append_prev` copies it. -/
structure Blk where
  hash : Nat
  prev_used : Nat
  prevs : List PathE
  hashes_to_genesis : Nat
deriving DecidableEq

/-- A pluggable `len_func(prevs, num_prevs, to)`: every call in the C
passes the array length as `num_prevs`, so the model passes the list and
the target index and lets the function measure the length itself. -/
def LenF : Type := List PathE → Nat → Nat → Nat

/-- `proof_len` (incremental-proof-tree.c:214-230): find the index of
`blocknum` in `prevs` and apply the length function.  The C `abort()`s
when `blocknum` is absent; the simulation never reaches that case (each
lookup target is in the array by construction — proved below), and the
model returns 0 there. -/
def c_proof_len (lenf : LenF) (prevs : List PathE) (blocknum : Nat) : Nat :=
  match prevs.findIdx? (fun e => e.blocknum == blocknum) with
  | some i => lenf prevs prevs.length i
  | none => 0

/-- `append_prev` (incremental-proof-tree.c:233-249): copy entries
`0..prev_used` of the previous block's path, then append the previous
block itself; its `num_hashes` is computed by a `proof_len` lookup on the
new array (whose freshly `calloc`ed last entry still has `num_hashes = 0`
at lookup time). -/
def append_prev (lenf : LenF) (prev : Blk) (prev_blocknum : Nat) : List PathE :=
  let base := prev.prevs.take (prev.prev_used + 1) ++ [⟨prev_blocknum, 0⟩]
  let nh := prev.hashes_to_genesis + c_proof_len lenf base prev_blocknum
  prev.prevs.take (prev.prev_used + 1) ++ [⟨prev_blocknum, nh⟩]

/-- The best-previous scan of `print_incremental_length`
(incremental-proof-tree.c:288-306): `j` ascends over the path; entries
with `blocknum < i - skip` are skipped; `best_distance` starts at `-1ULL`
and `prev_used` (calloc) at 0. -/
def inc_scan (lenf : LenF) (prevs : List PathE) (i skip : Nat) : Nat × Nat :=
  foldUp
    (fun j acc =>
      let e := prevs.getD j ⟨0, 0⟩
      if e.blocknum < i - skip then acc
      else
        let plen := c_proof_len lenf prevs e.blocknum
        if e.num_hashes + plen < acc.1 then (e.num_hashes + plen, j) else acc)
    0 prevs.length (U64MAX, 0)

/-- One iteration of the block loop of `print_incremental_length`
(incremental-proof-tree.c:263-309), building block `i = blocks.length`.
The path-freeing loop (lines 273-278) only releases memory of blocks that
are never read again and does not change any value, so it has no model. -/
def inc_step (lenf : LenF) (h : Nat → Nat) (blocks : List Blk) : List Blk :=
  let i := blocks.length
  let prev := blocks.getD (i - 1) ⟨0, 0, [], 0⟩
  let prevs := append_prev lenf prev (i - 1)
  let hash := h i
  let skip := skipOf hash i
  let r := inc_scan lenf prevs i skip
  blocks ++ [⟨hash, r.2, prevs, r.1⟩]

/-- Blocks `0..n` of `print_incremental_length`
(incremental-proof-tree.c:251-309).  Genesis: zeroed block with one
zeroed path entry allocated (line 261). -/
def incRun (lenf : LenF) (h : Nat → Nat) : Nat → List Blk
  | 0 => [⟨0, 0, [⟨0, 0⟩], 0⟩]
  | n+1 => inc_step lenf h (incRun lenf h n)

/-- `struct maaku_node` (maakutree.h): `nil` models a NULL child pointer. -/
inductive MNode : Type where
  | nil : MNode
  | node (value depth : Nat) (fixd : Bool) (c0 c1 : MNode) : MNode
deriving DecidableEq

/-- `struct maaku_tree` (maakutree.h). -/
structure MaakuTree where
  max_depth : Nat
  root : MNode
deriving DecidableEq

/-- Number of nodes (used as the recursion measure for `add_at`). -/
def msize : MNode → Nat
  | .nil => 0
  | .node _ _ _ a b => 1 + msize a + msize b

/-- `is_fixed` (maakutree.c:21-34).  The C memoizes `node->fixed`; the model
returns the (possibly flag-updated) node alongside the result.  `&&`
short-circuits: when the left child is not fixed the right child is not
visited. -/
def is_fixed (md : Nat) : MNode → Bool × MNode
  | .nil => (false, .nil)
  | .node v d f c0 c1 =>
    if f then (true, .node v d f c0 c1)
    else if d = md then (true, .node v d true c0 c1)
    else if c0 = .nil ∨ c1 = .nil then (false, .node v d f c0 c1)
    else
      let ra := is_fixed md c0
      if ra.1 then
        let rb := is_fixed md c1
        (rb.1, .node v d rb.1 ra.2 rb.2)
      else (false, .node v d f ra.2 c1)

/-- Erase the memo flags; `is_fixed` changes a node only up to `strip`. -/
def strip : MNode → MNode
  | .nil => .nil
  | .node v d _ a b => .node v d false (strip a) (strip b)

theorem strip_is_fixed (md : Nat) (n : MNode) :
    strip (is_fixed md n).2 = strip n := by
  induction n with
  | nil => rfl
  | node v d f c0 c1 ih0 ih1 =>
    simp only [is_fixed]
    split
    · rfl
    split
    · rfl
    split
    · rfl
    split
    · simp [strip, ih0, ih1]
    · simp [strip, ih0]

theorem msize_strip (n : MNode) : msize (strip n) = msize n := by
  induction n with
  | nil => rfl
  | node v d f a b iha ihb => simp [strip, msize, iha, ihb]

theorem msize_eq_of_strip_eq {n n' : MNode} (h : strip n = strip n') :
    msize n = msize n' := by
  rw [← msize_strip n, ← msize_strip n', h]

theorem msize_is_fixed (md : Nat) (n : MNode) :
    msize (is_fixed md n).2 = msize n :=
  msize_eq_of_strip_eq (strip_is_fixed md n)

/-- `add_at` (maakutree.c:47-68).  `swap` (lines 36-45) exchanges the values
of the visited node and the descending fresh node, so the visited node now
holds `v` and the old value `val` continues downward; the fresh node is
always childless with `fixed = false`.  The `assert(!is_fixed(...))` at
line 66 calls `is_fixed` on `child[1]` (memoizing flags) before the
recursive call, which the model keeps. -/
def add_at (md : Nat) (n : MNode) (v : Nat) : MNode :=
  match n with
  | .nil => .nil
  | .node val d f c0 c1 =>
    if c0 = .nil then .node v d f (.node val (d+1) false .nil .nil) c1
    else if (is_fixed md c0).1 = false then
      .node v d f (add_at md (is_fixed md c0).2 val) c1
    else if c1 = .nil then
      .node v d f (is_fixed md c0).2 (.node val (d+1) false .nil .nil)
    else
      .node v d f (is_fixed md c0).2 (add_at md (is_fixed md c1).2 val)
termination_by msize n
decreasing_by
  all_goals simp only [msize_is_fixed, msize]
  all_goals omega

/-- `inc_depths` (maakutree.c:71-78). -/
def inc_depths : MNode → MNode
  | .nil => .nil
  | .node v d f a b => .node v (d+1) f (inc_depths a) (inc_depths b)

/-- `add_maaku_node` (maakutree.c:80-107).  The `assert(is_fixed(tree,
tree->root->child[0]))` at line 105 memoizes flags in the left child before
`add_at` runs, which the model keeps. -/
def add_maaku_node (t : MaakuTree) (value : Nat) : MaakuTree :=
  if t.root = .nil then ⟨0, .node value 0 false .nil .nil⟩
  else
    let r := is_fixed t.max_depth t.root
    if r.1 then
      ⟨t.max_depth + 1, .node value 0 false (inc_depths r.2) .nil⟩
    else
      let r2 := match r.2 with
        | .node v d f c0 c1 => MNode.node v d f (is_fixed t.max_depth c0).2 c1
        | .nil => MNode.nil
      ⟨t.max_depth, add_at t.max_depth r2 value⟩

/-- The maaku tree built by the TEST harness of maakutree.c (lines 163-181)
and by `maaku_proof_len` (test-trees.c:90-104): start from
`{max_depth = 0, root = NULL}` and insert `0, 1, …, k-1` in order. -/
def buildMaaku : Nat → MaakuTree
  | 0 => ⟨0, .nil⟩
  | k+1 => add_maaku_node (buildMaaku k) k

/-- `check_node` (maakutree.c:109-120): every node's `depth` field equals
its actual depth and is at most `max_depth`. -/
def check_node (t_md : Nat) : MNode → Nat → Bool
  | .nil, _ => true
  | .node _ nd _ a b, depth =>
    decide (nd = depth) && decide (nd ≤ t_md) &&
    check_node t_md a (depth+1) && check_node t_md b (depth+1)

/-- Value of the root node (0 for the never-queried NULL case). -/
def rootVal : MNode → Nat
  | .nil => 0
  | .node v _ _ _ _ => v

/-- `check_maaku_tree` (maakutree.c:122-127). -/
def check_maaku_tree (t : MaakuTree) (max_value : Nat) : Bool :=
  (t.root = .nil || decide (rootVal t.root = max_value)) &&
  check_node t.max_depth t.root 0

/-- All values in the subtree are `< v`. -/
def allLt (v : Nat) : MNode → Bool
  | .nil => true
  | .node w _ _ a b => decide (w < v) && allLt v a && allLt v b

/-- Strong max-heap: every node's value exceeds every value below it. -/
def heapS : MNode → Bool
  | .nil => true
  | .node w _ _ a b => allLt w a && allLt w b && heapS a && heapS b

/-- The literal claim: each node's value exceeds each child's value. -/
def childLt (w : Nat) : MNode → Bool
  | .nil => true
  | .node x _ _ _ _ => decide (x < w)

/-- Parent-greater-than-child form of the heap property. -/
def heapOk : MNode → Bool
  | .nil => true
  | .node w _ _ a b => childLt w a && childLt w b && heapOk a && heapOk b

/-- Shape-only perfectness: subtree hangs at depth `d`, is a complete
binary tree whose leaves all sit at depth `m`, with accurate `depth`
fields ("fixed" in the C's terminology, ignoring the memo flags). -/
def perfectB (d m : Nat) : MNode → Bool
  | .nil => false
  | .node _ nd _ a b =>
    decide (nd = d) &&
    (if d = m then decide (a = .nil) && decide (b = .nil)
     else perfectB (d+1) m a && perfectB (d+1) m b)

/-- Modelled from the spec's words for claim C2 only (refinement target, to
be compared with the code's `optimal_proof_len`): cost
`f(floor(log2(N - to)))` with `f(0) = 1`, `f(d) = 2d - 1` for `d > 0`. -/
def spec_optimal_cost (n tgt : Nat) : Nat :=
  if Nat.log 2 (n - tgt) = 0 then 1 else 2 * Nat.log 2 (n - tgt) - 1

/-- Claim C2, counterexample: at `N = 3`, `to = 1` the code's breadth-first
oracle returns 3, not the claimed `f(floor(log2(2))) = f(1) = 1`; the
identically-coded `breadth_proof_len` differs as well. -/
theorem C2_counterexample :
    optimal_proof_len 3 1 ≠ spec_optimal_cost 3 1 ∧
    breadth_proof_len 3 1 ≠ spec_optimal_cost 3 1 := by
  have h : Nat.log 2 2 = 1 := Nat.log_eq_of_pow_le_of_lt_pow (by decide) (by decide)
  have h1 : spec_optimal_cost 3 1 = 1 := by simp [spec_optimal_cost, h]
  refine ⟨?_, ?_⟩ <;> rw [h1] <;> decide

/-- Claim C2, amended: the oracle returns
`f(floor(log2(N - to)) + 1) = 2 * floor(log2(N - to)) + 1` (the code feeds
ccan's `ilog32`, i.e. bit-length, to `f`, not the floor of the log). -/
theorem C2_amended_optimal_formula : ∀ n tgt : Nat, tgt < n →
    optimal_proof_len n tgt = 2 * Nat.log 2 (n - tgt) + 1 ∧
    breadth_proof_len n tgt = 2 * Nat.log 2 (n - tgt) + 1 := by
  intro n tgt h
  have hnz : n - tgt ≠ 0 := by omega
  constructor <;>
  · simp only [optimal_proof_len, breadth_proof_len, prooflen_for_internal_node,
      ilog32_eq_log hnz, Nat.succ_ne_zero, if_false]
    omega

/-- Claim C2, witness for the amended theorem at `N = 4`, `to = 1`. -/
theorem C2_amended_witness :
    (1 < 4) ∧ (optimal_proof_len 4 1 = 2 * Nat.log 2 (4 - 1) + 1 ∧
      breadth_proof_len 4 1 = 2 * Nat.log 2 (4 - 1) + 1) :=
  ⟨by decide, C2_amended_optimal_formula 4 1 (by decide)⟩

/-- Claim C3, counterexample: for `N = 5` the array/RFC6962 oracle does not
return `{2,2,2,3,0}` for `to = 0..4` (already wrong at `to = 0`). -/
theorem C3_counterexample :
    ¬ (rfc6962_proof_len 5 0 = 2 ∧ rfc6962_proof_len 5 1 = 2 ∧
       rfc6962_proof_len 5 2 = 2 ∧ rfc6962_proof_len 5 3 = 3 ∧
       rfc6962_proof_len 5 4 = 0) := by
  decide

/-- Claim C3, amended: for `N = 5` the proof lengths for `to = 0..4` are
`{3,3,3,3,1}` (the code's base case returns 0 at a singleton range but each
recursion level adds 1, and element 4 sits one level below the root);
`do_proof_len` is byte-identical in test-trees.c and
incremental-proof-tree.c, so this settles both copies. -/
theorem C3_amended_lengths :
    rfc6962_proof_len 5 0 = 3 ∧ rfc6962_proof_len 5 1 = 3 ∧
    rfc6962_proof_len 5 2 = 3 ∧ rfc6962_proof_len 5 3 = 3 ∧
    rfc6962_proof_len 5 4 = 1 := by
  decide

/-- A concrete cache whose first entry is block 5: used to exhibit the
cache-hit cost. -/
def c7cache : List CacheEntry := ⟨5, 9⟩ :: List.replicate 63 ⟨0, 0⟩

/-- Claim C7, counterexample: with capacity 16 and a cache hit, the
non-Huffman variant returns `1 + ilog32(16) = 6`, not the claimed
`1 + ceil(log2 16) = 5`. -/
theorem C7_counterexample :
    mmr_cache_proof_len 32 5 c7cache 16 false ≠ 1 + Nat.clog 2 16 := by
  have h : Nat.clog 2 16 = 4 := by
    rw [show (16:Nat) = 2 ^ 4 by norm_num]
    exact Nat.clog_pow 2 4 (by norm_num)
  rw [h]
  decide

/-- Claim C7, amended: for capacity `C ∈ {16,32,64}`: below `2C` blocks the
cache-augmented oracle equals plain MMR; on a cache hit the non-Huffman
variant returns `1 + (floor(log2 C) + 1) = 2 + floor(log2 C)` (the code
uses `ilog32`, i.e. bit-length, not the ceiling log); on a miss it returns
`1 + ` plain MMR. -/
theorem C7_amended_cache_cases :
    ∀ (fr tgt : Nat) (c : List CacheEntry) (cs : Nat) (huffman : Bool),
    (cs = 16 ∨ cs = 32 ∨ cs = 64) →
    (fr < cs * 2 → mmr_cache_proof_len fr tgt c cs huffman = mmr_proof_len fr tgt) ∧
    (cs * 2 ≤ fr → ((c.take cs).any (fun e => e.blocknum == tgt)) = true →
      mmr_cache_proof_len fr tgt c cs false = 2 + Nat.log 2 cs) ∧
    (cs * 2 ≤ fr → ((c.take cs).any (fun e => e.blocknum == tgt)) = false →
      mmr_cache_proof_len fr tgt c cs huffman = 1 + mmr_proof_len fr tgt) := by
  intro fr tgt c cs huffman hcs
  have hcs0 : cs ≠ 0 := by rcases hcs with h | h | h <;> omega
  refine ⟨fun hlt => ?_, fun hge hhit => ?_, fun hge hmiss => ?_⟩
  · simp [mmr_cache_proof_len, hlt]
  · have hnlt : ¬ fr < cs * 2 := by omega
    simp [mmr_cache_proof_len, hnlt, hhit, ilog32_eq_log hcs0]
    omega
  · have hnlt : ¬ fr < cs * 2 := by omega
    simp [mmr_cache_proof_len, hnlt, hmiss]

/-- Claim C7, witness exercising all three amended cases at concrete
inputs (capacity 16; a run below 32 blocks, a cache hit, a cache miss). -/
theorem C7_amended_witness :
    ((16:Nat) = 16 ∨ (16:Nat) = 32 ∨ (16:Nat) = 64) ∧
    ((10:Nat) < 16 * 2 ∧
      mmr_cache_proof_len 10 3 init_cache 16 false = mmr_proof_len 10 3) ∧
    ((16:Nat) * 2 ≤ 32 ∧
      mmr_cache_proof_len 32 5 c7cache 16 false = 2 + Nat.log 2 16) ∧
    ((16:Nat) * 2 ≤ 40 ∧
      mmr_cache_proof_len 40 7 init_cache 16 true = 1 + mmr_proof_len 40 7) :=
  ⟨Or.inl rfl,
   ⟨by decide, (C7_amended_cache_cases 10 3 init_cache 16 false (Or.inl rfl)).1 (by decide)⟩,
   ⟨by decide, (C7_amended_cache_cases 32 5 c7cache 16 false (Or.inl rfl)).2.1 (by decide) (by decide)⟩,
   ⟨by decide, (C7_amended_cache_cases 40 7 init_cache 16 true (Or.inl rfl)).2.2 (by decide) (by decide)⟩⟩

theorem strip_nil_iff {n : MNode} : strip n = .nil ↔ n = .nil := by
  cases n <;> simp [strip]

theorem rootVal_strip (n : MNode) : rootVal (strip n) = rootVal n := by
  cases n <;> rfl

/-- `add_at` always leaves the inserted value at the subtree root (the
`swap` at the top of maakutree.c:49). -/
theorem rootVal_add_at (md : Nat) (v : Nat) {n : MNode} (h : n ≠ .nil) :
    rootVal (add_at md n v) = v := by
  cases n with
  | nil => exact absurd rfl h
  | node val d f c0 c1 =>
    unfold add_at
    split
    · rfl
    split
    · rfl
    split
    · rfl
    · rfl

/-- Every insertion leaves the inserted value at the root of the tree. -/
theorem rootVal_add (t : MaakuTree) (v : Nat) :
    rootVal (add_maaku_node t v).root = v := by
  by_cases h0 : t.root = .nil
  · simp [add_maaku_node, h0, rootVal]
  · by_cases h1 : (is_fixed t.max_depth t.root).1
    · simp [add_maaku_node, h0, h1, rootVal]
    · rcases hm : (is_fixed t.max_depth t.root).2 with _ | ⟨v', d', f', a, b⟩
      · exfalso
        have hs := strip_is_fixed t.max_depth t.root
        rw [hm] at hs
        cases htr : t.root with
        | nil => exact h0 htr
        | node => rw [htr] at hs; simp [strip] at hs
      · have hrw : add_maaku_node t v =
            ⟨t.max_depth,
             add_at t.max_depth (MNode.node v' d' f' (is_fixed t.max_depth a).2 b) v⟩ := by
          simp [add_maaku_node, h0, h1, hm]
        rw [hrw]
        exact rootVal_add_at _ _ (by simp)

/-- Claim C9: after inserting `0..k-1` in order the maaku root holds `k-1`;
in particular after inserting `0,1,2,3,4` the root value is 4. -/
theorem C9_maaku_root_freshness :
    (∀ k : Nat, 1 ≤ k → rootVal (buildMaaku k).root = k - 1) ∧
    rootVal (buildMaaku 5).root = 4 := by
  have hmain : ∀ k : Nat, 1 ≤ k → rootVal (buildMaaku k).root = k - 1 := by
    intro k hk
    cases k with
    | zero => omega
    | succ k => simpa [buildMaaku] using rootVal_add (buildMaaku k) k
  exact ⟨hmain, by simpa using hmain 5 (by norm_num)⟩

/-- Claim C9, witness at `k = 3`. -/
theorem C9_maaku_root_freshness_witness :
    (1 ≤ 3) ∧ rootVal (buildMaaku 3).root = 3 - 1 :=
  ⟨by decide, C9_maaku_root_freshness.1 3 (by decide)⟩

theorem getD_snoc_lt {α : Type} (l : List α) (x d : α) {j : Nat}
    (hj : j < l.length) : (l ++ [x]).getD j d = l.getD j d := by
  simp [List.getD, List.getElem?_append_left hj]

theorem getD_snoc_len {α : Type} (l : List α) (x d : α) :
    (l ++ [x]).getD l.length d = x := by
  simp [List.getD]

/-- Characterization of the descending cost/index scan (the spv.c inner
loop): the final cost is the minimum of the accumulator and all window
costs; on a strict improvement the recorded index is the *largest* window
index attaining the final cost. -/
theorem foldDown_min_pair (g : Nat → Nat) (lo : Nat) :
    ∀ (c : Nat) (acc : Nat × Nat),
    (∀ j, lo ≤ j → j < lo + c →
      (foldDown (fun j a => if g j < a.1 then (g j, j) else a) lo c acc).1 ≤ g j) ∧
    (foldDown (fun j a => if g j < a.1 then (g j, j) else a) lo c acc).1 ≤ acc.1 ∧
    ((foldDown (fun j a => if g j < a.1 then (g j, j) else a) lo c acc) = acc ∨
      (lo ≤ (foldDown (fun j a => if g j < a.1 then (g j, j) else a) lo c acc).2 ∧
       (foldDown (fun j a => if g j < a.1 then (g j, j) else a) lo c acc).2 < lo + c ∧
       g (foldDown (fun j a => if g j < a.1 then (g j, j) else a) lo c acc).2 =
         (foldDown (fun j a => if g j < a.1 then (g j, j) else a) lo c acc).1 ∧
       (foldDown (fun j a => if g j < a.1 then (g j, j) else a) lo c acc).1 < acc.1 ∧
       (∀ j, (foldDown (fun j a => if g j < a.1 then (g j, j) else a) lo c acc).2 < j →
          j < lo + c →
          (foldDown (fun j a => if g j < a.1 then (g j, j) else a) lo c acc).1 < g j))) := by
  intro c
  induction c with
  | zero =>
    intro acc
    refine ⟨fun j h1 h2 => by omega, le_rfl, Or.inl rfl⟩
  | succ c ih =>
    intro acc
    simp only [foldDown]
    by_cases hg : g (lo + c) < acc.1
    · rcases ih (g (lo + c), lo + c) with ⟨m1, m2, m3⟩
      rw [if_pos hg]
      refine ⟨?_, ?_, ?_⟩
      · intro j h1 h2
        rcases Nat.lt_or_ge j (lo + c) with hj | hj
        · exact m1 j h1 hj
        · have : j = lo + c := by omega
          subst this
          simpa using m2
      · simp at m2; omega
      · rcases m3 with heq | ⟨r1, r2, r3, r4, r5⟩
        · rw [heq]
          exact Or.inr ⟨by omega, by omega, rfl, hg, fun j hj1 hj2 => by omega⟩
        · refine Or.inr ⟨r1, by omega, r3, by omega, ?_⟩
          intro j hj1 hj2
          rcases Nat.lt_or_ge j (lo + c) with hj | hj
          · exact r5 j hj1 hj
          · have : j = lo + c := by omega
            subst this
            simp at r4
            omega
    · rcases ih acc with ⟨m1, m2, m3⟩
      rw [if_neg hg]
      refine ⟨?_, m2, ?_⟩
      · intro j h1 h2
        rcases Nat.lt_or_ge j (lo + c) with hj | hj
        · exact m1 j h1 hj
        · have : j = lo + c := by omega
          subst this
          omega
      · rcases m3 with heq | ⟨r1, r2, r3, r4, r5⟩
        · exact Or.inl heq
        · refine Or.inr ⟨r1, by omega, r3, r4, ?_⟩
          intro j hj1 hj2
          rcases Nat.lt_or_ge j (lo + c) with hj | hj
          · exact r5 j hj1 hj
          · have : j = lo + c := by omega
            subst this
            omega

/-- Characterization of the descending pure-minimum scan (the
`print_optimal_length` inner loop). -/
theorem foldDown_min (g : Nat → Nat) (lo : Nat) :
    ∀ (c : Nat) (b : Nat),
    (foldDown (fun j a => if g j < a then g j else a) lo c b) ≤ b ∧
    (∀ j, lo ≤ j → j < lo + c →
      (foldDown (fun j a => if g j < a then g j else a) lo c b) ≤ g j) ∧
    ((foldDown (fun j a => if g j < a then g j else a) lo c b) = b ∨
      ∃ j, lo ≤ j ∧ j < lo + c ∧
        (foldDown (fun j a => if g j < a then g j else a) lo c b) = g j) := by
  intro c
  induction c with
  | zero =>
    intro b
    exact ⟨le_rfl, fun j h1 h2 => by omega, Or.inl rfl⟩
  | succ c ih =>
    intro b
    simp only [foldDown]
    by_cases hg : g (lo + c) < b
    · rcases ih (g (lo + c)) with ⟨m1, m2, m3⟩
      rw [if_pos hg]
      refine ⟨by omega, ?_, ?_⟩
      · intro j h1 h2
        rcases Nat.lt_or_ge j (lo + c) with hj | hj
        · exact m2 j h1 hj
        · have : j = lo + c := by omega
          subst this
          exact m1
      · rcases m3 with heq | ⟨j, hj1, hj2, hj3⟩
        · exact Or.inr ⟨lo + c, by omega, by omega, heq⟩
        · exact Or.inr ⟨j, hj1, by omega, hj3⟩
    · rcases ih b with ⟨m1, m2, m3⟩
      rw [if_neg hg]
      refine ⟨m1, ?_, ?_⟩
      · intro j h1 h2
        rcases Nat.lt_or_ge j (lo + c) with hj | hj
        · exact m2 j h1 hj
        · have : j = lo + c := by omega
          subst this
          omega
      · rcases m3 with heq | ⟨j, hj1, hj2, hj3⟩
        · exact Or.inl heq
        · exact Or.inr ⟨j, hj1, by omega, hj3⟩

/-- The index kept by the `print_proof_lengths` inner scan is the initial
one or lies in the scanned window. -/
theorem foldDown_pick_mem (dist : List Nat) (lo : Nat) :
    ∀ (c : Nat) (b : Nat),
    (foldDown (fun j best => if 1 + dist.getD j 0 < dist.getD best 0 then j else best)
      lo c b) = b ∨
    (lo ≤ (foldDown (fun j best => if 1 + dist.getD j 0 < dist.getD best 0 then j else best)
        lo c b) ∧
     (foldDown (fun j best => if 1 + dist.getD j 0 < dist.getD best 0 then j else best)
        lo c b) < lo + c) := by
  intro c
  induction c with
  | zero => intro b; exact Or.inl rfl
  | succ c ih =>
    intro b
    simp only [foldDown]
    rcases ih (if 1 + dist.getD (lo + c) 0 < dist.getD b 0 then lo + c else b) with
      heq | ⟨h1, h2⟩
    · rw [heq]
      split
      · exact Or.inr ⟨by omega, by omega⟩
      · exact Or.inl rfl
    · exact Or.inr ⟨h1, by omega⟩

theorem spvRun_len (h : Nat → Nat) (n : Nat) :
    ((spvRun h n).1.length = n + 1) ∧ ((spvRun h n).2.length = n + 1) := by
  induction n with
  | zero => exact ⟨rfl, rfl⟩
  | succ n ih => simp [spvRun, ih.1, ih.2]

theorem ttRun_len (h : Nat → Nat) (t n : Nat) :
    ((ttRun h t n).1.length = n + 1) ∧ ((ttRun h t n).2.length = n + 1) := by
  induction n with
  | zero => exact ⟨rfl, rfl⟩
  | succ n ih =>
    simp only [ttRun]
    split <;> simp [ih.1, ih.2]

theorem optRun_len (lenf : Nat → Nat → List CacheEntry → Nat) (h : Nat → Nat)
    (t n : Nat) : ((optRun lenf h t n).1.length = n + 1) := by
  induction n with
  | zero => rfl
  | succ n ih =>
    simp only [optRun]
    split <;> simp [ih]

theorem incRun_len (lenf : LenF) (h : Nat → Nat) (n : Nat) :
    (incRun lenf h n).length = n + 1 := by
  induction n with
  | zero => rfl
  | succ n ih => simp [incRun, inc_step, ih]

theorem skipOf_pos {hash i : Nat} (h1 : 1 ≤ hash) (h2 : hash ≤ U64MAX)
    (hi : 1 ≤ i) : 1 ≤ skipOf hash i ∧ skipOf hash i ≤ i := by
  unfold skipOf
  refine ⟨?_, Nat.min_le_right _ _⟩
  have : 1 ≤ U64MAX / hash := (Nat.one_le_div_iff (by omega)).mpr h2
  omega

/-- Hash stream for the C1 refutation run of `print_proof_lengths`: blocks
1, 2 draw `2^64-1` (skip 1), block 3 draws `⌊(2^64-1)/2⌋` (skip 2). -/
def c1hashA : Nat → Nat := fun i => if i = 3 then 9223372036854775807 else U64MAX

/-- Hash stream for the spv.c tie run: block 1 draws `2^64-1` (skip 1),
blocks 2, 3 draw `⌊(2^64-1)/2⌋` (skip 2). -/
def c1hashB : Nat → Nat := fun i => if i = 1 then U64MAX else 9223372036854775807

/-- Claim C1, counterexample.  First run (generic hop-count mode of
test-trees.c): at block 3 the scan keeps `best = 2` although candidate 1
has strictly smaller cost `1 + dist[1]` — the `1 + dist[j] < dist[best]`
comparison does not select a cost minimizer.  Second run (spv.c): at block
3 candidates 1 and 2 tie at the minimal cost, and the *largest* index 2 is
kept, not the claimed smallest. -/
theorem C1_counterexample :
    ((ttRun c1hashA 0 3).2.getD 3 0 = 2 ∧
     skipOf (c1hashA 3) 3 = 2 ∧
     1 + (ttRun c1hashA 0 3).1.getD 1 0 < 1 + (ttRun c1hashA 0 3).1.getD 2 0) ∧
    ((spvRun c1hashB 3).2.getD 3 0 = 2 ∧
     skipOf (c1hashB 3) 3 = 2 ∧
     1 + (spvRun c1hashB 3).1.getD 1 0 = (spvRun c1hashB 3).1.getD 3 0 ∧
     1 + (spvRun c1hashB 3).1.getD 2 0 = (spvRun c1hashB 3).1.getD 3 0) := by
  decide

/-- Claim C1, amended: (spv.c) the scan stores in `dist[i]` the minimum of
`1 + dist[j]` over `j ∈ [i-skip, i-1]` and in `next_step[i]` the *largest*
minimizing `j`; (test-trees.c per-topology mode) `prooflen[i]` is the
minimum of `proof_len(i,j) + prooflen[j]` over the window (or the
`(unsigned)-1` initial value when nothing beats it).  The generic
hop-count scan of `print_proof_lengths` replaces `best` only when
`1 + dist[j] < dist[best]` and therefore need not select a minimizer (see
the counterexample). -/
theorem C1_amended_dp_minimization :
    (∀ (h : Nat → Nat) (i : Nat), 1 ≤ i →
      (∀ j, 1 ≤ h j ∧ h j ≤ U64MAX) →
      i - skipOf (h i) i ≤ (spvRun h i).2.getD i 0 ∧
      (spvRun h i).2.getD i 0 < i ∧
      (spvRun h i).1.getD i 0 =
        1 + (spvRun h (i-1)).1.getD ((spvRun h i).2.getD i 0) 0 ∧
      (∀ j, i - skipOf (h i) i ≤ j → j < i →
        (spvRun h i).1.getD i 0 ≤ 1 + (spvRun h (i-1)).1.getD j 0) ∧
      (∀ j, i - skipOf (h i) i ≤ j → j < i →
        1 + (spvRun h (i-1)).1.getD j 0 = (spvRun h i).1.getD i 0 →
        j ≤ (spvRun h i).2.getD i 0)) ∧
    (∀ (lenf : Nat → Nat → List CacheEntry → Nat) (h : Nat → Nat) (t i : Nat),
      t < i → 1 ≤ i →
      (∀ j, i - skipOf (h i) i ≤ j → j < i →
        (optRun lenf h t i).1.getD i 0 ≤
          lenf i j (optRun lenf h t i).2 + (optRun lenf h t (i-1)).1.getD j 0) ∧
      ((optRun lenf h t i).1.getD i 0 = U32MAX ∨
        ∃ j, i - skipOf (h i) i ≤ j ∧ j < i ∧
          (optRun lenf h t i).1.getD i 0 =
            lenf i j (optRun lenf h t i).2 + (optRun lenf h t (i-1)).1.getD j 0)) := by
  constructor
  · intro h i hi hh
    obtain ⟨m, rfl⟩ : ∃ m, i = m + 1 := ⟨i - 1, by omega⟩
    simp only [Nat.add_sub_cancel]
    have hlen1 := (spvRun_len h m).1
    have hlen2 := (spvRun_len h m).2
    have hskip := skipOf_pos (hh (m+1)).1 (hh (m+1)).2 (by omega : 1 ≤ m + 1)
    set skip := skipOf (h (m+1)) (m+1) with hskipdef
    have hrun : spvRun h (m+1) =
        ((spvRun h m).1 ++ [(spv_scan (spvRun h m).1 (m+1) skip).1],
         (spvRun h m).2 ++ [(spv_scan (spvRun h m).1 (m+1) skip).2]) := rfl
    have hd : (spvRun h (m+1)).1.getD (m+1) 0 =
        (spv_scan (spvRun h m).1 (m+1) skip).1 := by
      rw [hrun]
      have := getD_snoc_len (spvRun h m).1
        ((spv_scan (spvRun h m).1 (m+1) skip).1) 0
      rw [hlen1] at this
      exact this
    have hs : (spvRun h (m+1)).2.getD (m+1) 0 =
        (spv_scan (spvRun h m).1 (m+1) skip).2 := by
      rw [hrun]
      have := getD_snoc_len (spvRun h m).2
        ((spv_scan (spvRun h m).1 (m+1) skip).2) 0
      rw [hlen2] at this
      exact this
    have hspec := foldDown_min_pair (fun j => 1 + (spvRun h m).1.getD j 0)
      (m + 1 - skip) skip ((spvRun h m).1.getD (m+1-1) 0 + 1, m + 1 - 1)
    have hwin : m + 1 - skip + skip = m + 1 := by omega
    rw [hwin] at hspec
    obtain ⟨m1, m2, m3⟩ := hspec
    have hscan : spv_scan (spvRun h m).1 (m+1) skip =
        foldDown (fun j a => if 1 + (spvRun h m).1.getD j 0 < a.1
            then (1 + (spvRun h m).1.getD j 0, j) else a)
          (m + 1 - skip) skip ((spvRun h m).1.getD (m+1-1) 0 + 1, m + 1 - 1) := rfl
    rw [hd, hs, hscan]
    rcases m3 with heq | ⟨r1, r2, r3, r4, r5⟩
    · rw [heq]
      simp only [Nat.add_sub_cancel]
      refine ⟨by omega, by omega, by omega, ?_, ?_⟩
      · intro j hj1 hj2
        have := m1 j hj1 (by omega)
        rw [heq] at this
        simp only [Nat.add_sub_cancel] at this ⊢
        omega
      · intro j hj1 hj2 hj3
        omega
    · refine ⟨r1, r2, by omega, ?_, ?_⟩
      · intro j hj1 hj2
        have := m1 j hj1 (by omega)
        omega
      · intro j hj1 hj2 hj3
        by_contra hcon
        have := r5 j (by omega) (by omega)
        omega
  · intro lenf h t i hti hi
    obtain ⟨m, rfl⟩ : ∃ m, i = m + 1 := ⟨i - 1, by omega⟩
    simp only [Nat.add_sub_cancel]
    have hlen := optRun_len lenf h t m
    have hnle : ¬ (m + 1 ≤ t) := by omega
    set skip := skipOf (h (m+1)) (m+1) with hskipdef
    set cache := add_to_cache (optRun lenf h t m).2 skip (m+1) with hcachedef
    have hrun : optRun lenf h t (m+1) =
        ((optRun lenf h t m).1 ++
          [opt_scan lenf (optRun lenf h t m).1 cache (m+1) skip], cache) := by
      simp only [optRun, hnle, if_false]
    have hd : (optRun lenf h t (m+1)).1.getD (m+1) 0 =
        opt_scan lenf (optRun lenf h t m).1 cache (m+1) skip := by
      rw [hrun]
      have := getD_snoc_len (optRun lenf h t m).1
        (opt_scan lenf (optRun lenf h t m).1 cache (m+1) skip) 0
      rw [hlen] at this
      exact this
    have hc : (optRun lenf h t (m+1)).2 = cache := by rw [hrun]
    have hspec := foldDown_min
      (fun j => lenf (m+1) j cache + (optRun lenf h t m).1.getD j 0)
      (m + 1 - skip) skip U32MAX
    have hsle : skip ≤ m + 1 := Nat.min_le_right _ _
    have hwin : m + 1 - skip + skip = m + 1 := by omega
    rw [hwin] at hspec
    obtain ⟨m1, m2, m3⟩ := hspec
    have hscan : opt_scan lenf (optRun lenf h t m).1 cache (m+1) skip =
        foldDown (fun j a =>
            if lenf (m+1) j cache + (optRun lenf h t m).1.getD j 0 < a
            then lenf (m+1) j cache + (optRun lenf h t m).1.getD j 0 else a)
          (m + 1 - skip) skip U32MAX := rfl
    rw [hd, hc, hscan]
    refine ⟨?_, ?_⟩
    · intro j hj1 hj2
      exact m2 j hj1 (by omega)
    · rcases m3 with heq | ⟨j, hj1, hj2, hj3⟩
      · exact Or.inl heq
      · exact Or.inr ⟨j, hj1, by omega, hj3⟩

/-- Claim C1, witness for the amended theorem: spv.c part at `i = 2` with a
constant all-ones hash stream; per-topology part at `i = 1`, `t = 0` with
the RFC6962 oracle. -/
theorem C1_amended_witness :
    ((1 ≤ 2) ∧
      (2 - skipOf ((fun _ => U64MAX) 2) 2 ≤
        (spvRun (fun _ => U64MAX) 2).2.getD 2 0 ∧
      (spvRun (fun _ => U64MAX) 2).2.getD 2 0 < 2 ∧
      (spvRun (fun _ => U64MAX) 2).1.getD 2 0 =
        1 + (spvRun (fun _ => U64MAX) (2-1)).1.getD
          ((spvRun (fun _ => U64MAX) 2).2.getD 2 0) 0 ∧
      (∀ j, 2 - skipOf ((fun _ => U64MAX) 2) 2 ≤ j → j < 2 →
        (spvRun (fun _ => U64MAX) 2).1.getD 2 0 ≤
          1 + (spvRun (fun _ => U64MAX) (2-1)).1.getD j 0) ∧
      (∀ j, 2 - skipOf ((fun _ => U64MAX) 2) 2 ≤ j → j < 2 →
        1 + (spvRun (fun _ => U64MAX) (2-1)).1.getD j 0 =
          (spvRun (fun _ => U64MAX) 2).1.getD 2 0 →
        j ≤ (spvRun (fun _ => U64MAX) 2).2.getD 2 0))) ∧
    ((0 < 1) ∧
      ((∀ j, 1 - skipOf ((fun _ => U64MAX) 1) 1 ≤ j → j < 1 →
        (optRun (fun fr tg _ => rfc6962_proof_len fr tg) (fun _ => U64MAX) 0 1).1.getD 1 0 ≤
          (fun fr tg _ => rfc6962_proof_len fr tg) 1 j
              (optRun (fun fr tg _ => rfc6962_proof_len fr tg) (fun _ => U64MAX) 0 1).2 +
            (optRun (fun fr tg _ => rfc6962_proof_len fr tg) (fun _ => U64MAX) 0 (1-1)).1.getD j 0) ∧
      ((optRun (fun fr tg _ => rfc6962_proof_len fr tg) (fun _ => U64MAX) 0 1).1.getD 1 0 = U32MAX ∨
        ∃ j, 1 - skipOf ((fun _ => U64MAX) 1) 1 ≤ j ∧ j < 1 ∧
          (optRun (fun fr tg _ => rfc6962_proof_len fr tg) (fun _ => U64MAX) 0 1).1.getD 1 0 =
            (fun fr tg _ => rfc6962_proof_len fr tg) 1 j
                (optRun (fun fr tg _ => rfc6962_proof_len fr tg) (fun _ => U64MAX) 0 1).2 +
              (optRun (fun fr tg _ => rfc6962_proof_len fr tg) (fun _ => U64MAX) 0 (1-1)).1.getD j 0))) :=
  ⟨⟨by decide,
    C1_amended_dp_minimization.1 (fun _ => U64MAX) 2 (by decide)
      (fun _ => ⟨show (1:Nat) ≤ U64MAX by decide, le_rfl⟩)⟩,
   ⟨by decide,
    C1_amended_dp_minimization.2 (fun fr tg _ => rfc6962_proof_len fr tg)
      (fun _ => U64MAX) 0 1 (by decide) (by decide)⟩⟩

/-- The loop body of the best-previous scan (incremental-proof-tree.c:289-306),
factored out for the fold characterization; identical to the lambda inside
`inc_scan` with `thr = i - skip`. -/
def inc_upd (lenf : LenF) (prevs : List PathE) (thr : Nat) (j : Nat)
    (acc : Nat × Nat) : Nat × Nat :=
  let e := prevs.getD j ⟨0, 0⟩
  if e.blocknum < thr then acc
  else
    let plen := c_proof_len lenf prevs e.blocknum
    if e.num_hashes + plen < acc.1 then (e.num_hashes + plen, j) else acc

/-- Cost of path entry `j` as seen by the scan. -/
def inc_cost (lenf : LenF) (prevs : List PathE) (j : Nat) : Nat :=
  (prevs.getD j ⟨0, 0⟩).num_hashes +
    c_proof_len lenf prevs (prevs.getD j ⟨0, 0⟩).blocknum

theorem inc_scan_eq_foldUp (lenf : LenF) (prevs : List PathE) (i skip : Nat) :
    inc_scan lenf prevs i skip =
      foldUp (inc_upd lenf prevs (i - skip)) 0 prevs.length (U64MAX, 0) := rfl

/-- Characterization of the ascending filtered scan: the accumulator is
either untouched, or records an in-window entry satisfying the skip filter
together with its cost; the final cost never exceeds the cost of any
filtered-in entry. -/
theorem foldUp_inc_spec (lenf : LenF) (prevs : List PathE) (thr : Nat) :
    ∀ (c lo : Nat) (acc : Nat × Nat),
    (foldUp (inc_upd lenf prevs thr) lo c acc = acc ∨
      (lo ≤ (foldUp (inc_upd lenf prevs thr) lo c acc).2 ∧
       (foldUp (inc_upd lenf prevs thr) lo c acc).2 < lo + c ∧
       thr ≤ (prevs.getD (foldUp (inc_upd lenf prevs thr) lo c acc).2 ⟨0,0⟩).blocknum ∧
       (foldUp (inc_upd lenf prevs thr) lo c acc).1 =
         inc_cost lenf prevs (foldUp (inc_upd lenf prevs thr) lo c acc).2 ∧
       (foldUp (inc_upd lenf prevs thr) lo c acc).1 < acc.1)) ∧
    (foldUp (inc_upd lenf prevs thr) lo c acc).1 ≤ acc.1 ∧
    (∀ j, lo ≤ j → j < lo + c → thr ≤ (prevs.getD j ⟨0,0⟩).blocknum →
      (foldUp (inc_upd lenf prevs thr) lo c acc).1 ≤ inc_cost lenf prevs j) := by
  intro c
  induction c with
  | zero =>
    intro lo acc
    exact ⟨Or.inl rfl, le_rfl, fun j h1 h2 => by omega⟩
  | succ c ih =>
    intro lo acc
    simp only [foldUp]
    by_cases hbad : (prevs.getD lo ⟨0,0⟩).blocknum < thr
    · have hupd : inc_upd lenf prevs thr lo acc = acc := by
        simp only [inc_upd]
        rw [if_pos hbad]
      rw [hupd]
      rcases ih (lo + 1) acc with ⟨m1, m2, m3⟩
      refine ⟨?_, m2, ?_⟩
      · rcases m1 with heq | ⟨r1, r2, r3, r4, r5⟩
        · exact Or.inl heq
        · exact Or.inr ⟨by omega, by omega, r3, r4, r5⟩
      · intro j h1 h2 h3
        rcases Nat.lt_or_ge j (lo + 1) with hj | hj
        · have : j = lo := by omega
          subst this
          omega
        · exact m3 j hj (by omega) h3
    · by_cases himp : inc_cost lenf prevs lo < acc.1
      · have hupd : inc_upd lenf prevs thr lo acc = (inc_cost lenf prevs lo, lo) := by
          simp only [inc_upd]
          rw [if_neg hbad, if_pos]
          · rfl
          · exact himp
        rw [hupd]
        rcases ih (lo + 1) (inc_cost lenf prevs lo, lo) with ⟨m1, m2, m3⟩
        have m2' : (foldUp (inc_upd lenf prevs thr) (lo+1) c
            (inc_cost lenf prevs lo, lo)).1 ≤ inc_cost lenf prevs lo := m2
        refine ⟨?_, by omega, ?_⟩
        · rcases m1 with heq | ⟨r1, r2, r3, r4, r5⟩
          · rw [heq]
            refine Or.inr ⟨le_rfl, by omega, ?_, rfl, himp⟩
            show thr ≤ (prevs.getD lo ⟨0,0⟩).blocknum
            omega
          · have r5' : (foldUp (inc_upd lenf prevs thr) (lo+1) c
                (inc_cost lenf prevs lo, lo)).1 < inc_cost lenf prevs lo := r5
            exact Or.inr ⟨by omega, by omega, r3, r4, by omega⟩
        · intro j h1 h2 h3
          rcases Nat.lt_or_ge j (lo + 1) with hj | hj
          · have : j = lo := by omega
            subst this
            omega
          · exact m3 j hj (by omega) h3
      · have hupd : inc_upd lenf prevs thr lo acc = acc := by
          simp only [inc_upd]
          rw [if_neg hbad, if_neg]
          exact himp
        rw [hupd]
        rcases ih (lo + 1) acc with ⟨m1, m2, m3⟩
        refine ⟨?_, m2, ?_⟩
        · rcases m1 with heq | ⟨r1, r2, r3, r4, r5⟩
          · exact Or.inl heq
          · exact Or.inr ⟨by omega, by omega, r3, r4, r5⟩
        · intro j h1 h2 h3
          rcases Nat.lt_or_ge j (lo + 1) with hj | hj
          · have : j = lo := by omega
            subst this
            omega
          · exact m3 j hj (by omega) h3

/-- Default block value used for out-of-range list reads. -/
def noBlk : Blk := ⟨0, 0, [], 0⟩

/-- Block `i` as built by `print_incremental_length` after `i` iterations. -/
def incBlk (lenf : LenF) (h : Nat → Nat) (i : Nat) : Blk :=
  (incRun lenf h i).getD i noBlk

theorem incBlk_succ (lenf : LenF) (h : Nat → Nat) (m : Nat) :
    incBlk lenf h (m+1) =
      ⟨h (m+1),
       (inc_scan lenf (append_prev lenf (incBlk lenf h m) m) (m+1)
          (skipOf (h (m+1)) (m+1))).2,
       append_prev lenf (incBlk lenf h m) m,
       (inc_scan lenf (append_prev lenf (incBlk lenf h m) m) (m+1)
          (skipOf (h (m+1)) (m+1))).1⟩ := by
  have hlen := incRun_len lenf h m
  show ((inc_step lenf h (incRun lenf h m)).getD (m+1) noBlk) = _
  unfold inc_step
  simp only [hlen, Nat.add_sub_cancel]
  have hg := getD_snoc_len (incRun lenf h m)
    (⟨h (m+1),
      (inc_scan lenf (append_prev lenf ((incRun lenf h m).getD m ⟨0,0,[],0⟩) m) (m+1)
        (skipOf (h (m+1)) (m+1))).2,
      append_prev lenf ((incRun lenf h m).getD m ⟨0,0,[],0⟩) m,
      (inc_scan lenf (append_prev lenf ((incRun lenf h m).getD m ⟨0,0,[],0⟩) m) (m+1)
        (skipOf (h (m+1)) (m+1))).1⟩ : Blk) noBlk
  rw [hlen] at hg
  exact hg

theorem incBlk_zero (lenf : LenF) (h : Nat → Nat) :
    incBlk lenf h 0 = ⟨0, 0, [⟨0, 0⟩], 0⟩ := rfl

/-- Block 1's path: genesis's zeroed allocated entry plus the appended
entry for block 0 — both carry `blocknum = 0`. -/
theorem append_prev_block1 (lenf : LenF) :
    append_prev lenf ⟨0, 0, [⟨0, 0⟩], 0⟩ 0 =
      [⟨0, 0⟩, ⟨0, lenf [⟨0, 0⟩, ⟨0, 0⟩] 2 0⟩] := by
  show [⟨0, 0⟩, (⟨0, 0 + lenf [⟨0, 0⟩, ⟨0, 0⟩] 2 0⟩ : PathE)] = _
  rw [Nat.zero_add]

/-- Block 1 always links through its first path entry (`prev_used = 0`):
the duplicate second entry can never cost less since its `num_hashes`
already includes the first entry's proof length. -/
theorem inc_block1 (lenf : LenF) (h : Nat → Nat) :
    (incBlk lenf h 1).prevs = [⟨0, 0⟩, ⟨0, lenf [⟨0, 0⟩, ⟨0, 0⟩] 2 0⟩] ∧
    (incBlk lenf h 1).prev_used = 0 := by
  have hb := incBlk_succ lenf h 0
  rw [incBlk_zero, append_prev_block1] at hb
  rw [hb]
  refine ⟨rfl, ?_⟩
  show (inc_scan lenf [⟨0, 0⟩, ⟨0, lenf [⟨0, 0⟩, ⟨0, 0⟩] 2 0⟩] 1
      (skipOf (h 1) 1)).2 = 0
  rw [inc_scan_eq_foldUp]
  have hsk : skipOf (h 1) 1 ≤ 1 := Nat.min_le_right _ _
  set P : List PathE := [⟨0, 0⟩, ⟨0, lenf [⟨0, 0⟩, ⟨0, 0⟩] 2 0⟩] with hP
  set thr := 1 - skipOf (h 1) 1 with hthr
  show (foldUp (inc_upd lenf P thr) 0 P.length (U64MAX, 0)).2 = 0
  have hPlen : P.length = 2 := rfl
  rw [hPlen]
  show (inc_upd lenf P thr 1 (inc_upd lenf P thr 0 (U64MAX, 0))).2 = 0
  have hg0 : P.getD 0 ⟨0,0⟩ = ⟨0, 0⟩ := rfl
  have hg1 : P.getD 1 ⟨0,0⟩ = ⟨0, lenf [⟨0, 0⟩, ⟨0, 0⟩] 2 0⟩ := rfl
  rcases Nat.eq_zero_or_pos thr with h0 | h1
  · -- both entries pass the filter; the second can never improve on the first
    simp only [inc_upd, hg0, hg1, h0]
    split_ifs <;> simp_all <;> omega
  · -- threshold 1: both entries (blocknum 0) are filtered out
    have : ¬ (0 : Nat) ≥ thr := by omega
    simp only [inc_upd, hg0, hg1]
    rw [if_pos (by omega), if_pos (by omega)]

/-- Structural invariant of the accumulator paths, for any oracle and any
hash stream: block `i`'s path is nonempty, ends at block `i-1`, mentions
only blocks `< i`, has length at most `i+1`, a valid `prev_used`, and (for
`i ≥ 2`) strictly increasing block numbers. -/
theorem inc_struct (lenf : LenF) (h : Nat → Nat) :
    ∀ i : Nat, 1 ≤ i →
      (incBlk lenf h i).prevs ≠ [] ∧
      ((incBlk lenf h i).prevs.getLast?.getD ⟨0,0⟩).blocknum = i - 1 ∧
      (∀ e ∈ (incBlk lenf h i).prevs, e.blocknum < i) ∧
      (incBlk lenf h i).prev_used < (incBlk lenf h i).prevs.length ∧
      (incBlk lenf h i).prevs.length ≤ i + 1 ∧
      (2 ≤ i → (incBlk lenf h i).prevs.Pairwise
        (fun a b => a.blocknum < b.blocknum)) := by
  intro i
  induction i with
  | zero => omega
  | succ m ih =>
    intro _
    rcases Nat.eq_zero_or_pos m with rfl | hm
    · -- i = 1: computed directly
      obtain ⟨hp, hpu⟩ := inc_block1 lenf h
      rw [hp, hpu]
      refine ⟨by simp, by simp [List.getLast?], ?_, by simp, by simp, by omega⟩
      intro e he
      simp at he
      rcases he with rfl | rfl <;> simp
    · -- i = m+1 with m ≥ 1
      obtain ⟨ih1, ih2, ih3, ih4, ih5, ih6⟩ := ih hm
      have hstep := incBlk_succ lenf h m
      set bm := incBlk lenf h m with hbm
      set l := bm.prevs.take (bm.prev_used + 1) with hl
      set base := l ++ [(⟨m, 0⟩ : PathE)] with hbase
      set nh := bm.hashes_to_genesis + c_proof_len lenf base m with hnh
      have happ : append_prev lenf bm m = l ++ [⟨m, nh⟩] := rfl
      rw [happ] at hstep
      have hlsub : ∀ e ∈ l, e ∈ bm.prevs := fun e he => List.take_subset _ _ he
      have hnew : incBlk lenf h (m+1) =
          ⟨h (m+1),
           (inc_scan lenf (l ++ [⟨m, nh⟩]) (m+1) (skipOf (h (m+1)) (m+1))).2,
           l ++ [⟨m, nh⟩],
           (inc_scan lenf (l ++ [⟨m, nh⟩]) (m+1) (skipOf (h (m+1)) (m+1))).1⟩ :=
        hstep
      rw [hnew]
      refine ⟨by simp, ?_, ?_, ?_, ?_, ?_⟩
      · simp [List.getLast?_concat]
      · intro e he
        rcases List.mem_append.mp he with hel | her
        · have := ih3 e (hlsub e hel)
          omega
        · simp at her
          rw [her]
          show m < m + 1
          omega
      · -- prev_used < length
        show (inc_scan lenf (l ++ [(⟨m, nh⟩ : PathE)]) (m+1)
            (skipOf (h (m+1)) (m+1))).2 < (l ++ [(⟨m, nh⟩ : PathE)]).length
        rw [inc_scan_eq_foldUp]
        obtain ⟨c1, _, _⟩ := foldUp_inc_spec lenf (l ++ [(⟨m, nh⟩ : PathE)])
          ((m+1) - skipOf (h (m+1)) (m+1)) (l ++ [(⟨m, nh⟩ : PathE)]).length 0 (U64MAX, 0)
        rcases c1 with heq | ⟨_, r2, _, _, _⟩
        · rw [heq]
          simp
        · omega
      · -- length bound
        have : l.length ≤ bm.prev_used + 1 := by
          rw [hl]
          exact (List.length_take _ _).le.trans (Nat.min_le_left _ _)
        simp only [List.length_append, List.length_cons, List.length_nil]
        omega
      · -- strictly increasing block numbers
        intro _
        rw [List.pairwise_append]
        refine ⟨?_, by simp, ?_⟩
        · rcases Nat.lt_or_ge m 2 with hm2 | hm2
          · -- m = 1: l = take (pu+1) of block 1's path = [⟨0,0⟩]
            have hm1 : m = 1 := by omega
            subst hm1
            obtain ⟨hp, hpu⟩ := inc_block1 lenf h
            rw [hl, hp, hpu]
            simp
          · exact (ih6 hm2).sublist (List.take_sublist _ _)
        · intro a ha b hb
          simp at hb
          rw [hb]
          exact ih3 a (hlsub a ha)

theorem getD_mem_of_lt {α : Type} (l : List α) (d : α) :
    ∀ n, n < l.length → l.getD n d ∈ l := by
  induction l with
  | nil => intro n hn; simp at hn
  | cons a t ih =>
    intro n hn
    cases n with
    | zero => simp [List.getD]
    | succ n =>
      have hmem := ih n (by simpa using hn)
      simp only [List.getD_cons_succ]
      exact List.mem_cons_of_mem a hmem

theorem c_proof_len_le (lenf : LenF) (B : Nat) (ps : List PathE) (bn : Nat)
    (HB : ∀ t, lenf ps ps.length t ≤ B) : c_proof_len lenf ps bn ≤ B := by
  unfold c_proof_len
  cases hf : ps.findIdx? (fun e => e.blocknum == bn) with
  | none => exact Nat.zero_le B
  | some i => exact HB i

/-- Cost and selection master for the incremental accumulator: with the
oracle bounded by `B` on the path lengths the run can produce, nonzero
64-bit hashes, and `2·B·N` below the `-1ULL` sentinel, every block's
cumulative cost stays `≤ 2·B·i`, the scan always finds a candidate within
the skip window, and the stored `prev_used` entry satisfies the skip
bound. -/
theorem inc_master (lenf : LenF) (h : Nat → Nat) (B N : Nat)
    (HB : ∀ ps t, ps.length ≤ N + 1 → lenf ps ps.length t ≤ B)
    (Hh : ∀ j, 1 ≤ h j ∧ h j ≤ U64MAX)
    (Hbig : 2 * B * N < U64MAX) :
    ∀ i : Nat, i ≤ N →
      (incBlk lenf h i).hashes_to_genesis ≤ 2 * B * i ∧
      (1 ≤ i →
        (∃ j, j < (incBlk lenf h i).prevs.length ∧
          i - skipOf (h i) i ≤ ((incBlk lenf h i).prevs.getD j ⟨0,0⟩).blocknum) ∧
        (incBlk lenf h i).hashes_to_genesis < U64MAX ∧
        i - skipOf (h i) i ≤
          ((incBlk lenf h i).prevs.getD (incBlk lenf h i).prev_used ⟨0,0⟩).blocknum ∧
        ((incBlk lenf h i).prevs.getD (incBlk lenf h i).prev_used ⟨0,0⟩).blocknum < i) := by
  intro i
  induction i with
  | zero =>
    intro _
    exact ⟨by simp [incBlk_zero], by omega⟩
  | succ m ih =>
    intro hiN
    obtain ⟨ihtg, _⟩ := ih (by omega)
    have hstep := incBlk_succ lenf h m
    set bm := incBlk lenf h m with hbm
    set l := bm.prevs.take (bm.prev_used + 1) with hl
    set base := l ++ [(⟨m, 0⟩ : PathE)] with hbase
    set nh := bm.hashes_to_genesis + c_proof_len lenf base m with hnh
    have happ : append_prev lenf bm m = l ++ [⟨m, nh⟩] := rfl
    rw [happ] at hstep
    set P : List PathE := l ++ [⟨m, nh⟩] with hP
    set skip := skipOf (h (m+1)) (m+1) with hskip
    -- path-length bound
    have hllen : l.length ≤ m + 1 := by
      rcases Nat.eq_zero_or_pos m with rfl | hm
      · rw [hl, hbm, incBlk_zero]
        simp
      · obtain ⟨_, _, _, hpu, hlen, _⟩ := inc_struct lenf h m hm
        rw [← hbm] at hpu hlen
        rw [hl]
        have := List.length_take (bm.prev_used + 1) bm.prevs
        omega
    have hPlen : P.length = l.length + 1 := by simp [hP]
    have hPlenN : P.length ≤ N + 1 := by omega
    have hbaselen : base.length ≤ N + 1 := by simp [hbase]; omega
    -- the freshly appended entry
    have hlast : P.getD l.length ⟨0,0⟩ = ⟨m, nh⟩ := getD_snoc_len l _ _
    -- skip is at least 1
    have hsk := skipOf_pos (Hh (m+1)).1 (Hh (m+1)).2 (by omega : 1 ≤ m + 1)
    rw [← hskip] at hsk
    -- cost of the appended entry
    have hclP : c_proof_len lenf P m ≤ B :=
      c_proof_len_le lenf B P m (fun t => HB P t hPlenN)
    have hclb : c_proof_len lenf base m ≤ B :=
      c_proof_len_le lenf B base m (fun t => HB base t hbaselen)
    have hcost : inc_cost lenf P l.length ≤ 2 * B * (m + 1) := by
      unfold inc_cost
      rw [hlast]
      show nh + c_proof_len lenf P m ≤ 2 * B * (m + 1)
      have : nh ≤ 2 * B * m + B := by rw [hnh]; omega
      have h2 : 2 * B * (m + 1) = 2 * B * m + 2 * B := by ring
      omega
    have hmono : 2 * B * (m + 1) ≤ 2 * B * N :=
      Nat.mul_le_mul_left _ (by omega)
    -- fold characterization of the scan over P
    obtain ⟨c1, c2, c3⟩ := foldUp_inc_spec lenf P ((m+1) - skip)
      P.length 0 (U64MAX, 0)
    have hpass : (m+1) - skip ≤ (P.getD l.length ⟨0,0⟩).blocknum := by
      rw [hlast]
      show (m+1) - skip ≤ m
      omega
    have hr1 : (foldUp (inc_upd lenf P ((m+1) - skip)) 0 P.length (U64MAX, 0)).1 ≤
        inc_cost lenf P l.length :=
      c3 l.length (Nat.zero_le _) (by omega) hpass
    have hscan : inc_scan lenf P (m+1) skip =
        foldUp (inc_upd lenf P ((m+1) - skip)) 0 P.length (U64MAX, 0) :=
      inc_scan_eq_foldUp lenf P (m+1) skip
    have hhtg : (incBlk lenf h (m+1)).hashes_to_genesis =
        (foldUp (inc_upd lenf P ((m+1) - skip)) 0 P.length (U64MAX, 0)).1 := by
      rw [hstep, ← hscan]
    have hpuP : (incBlk lenf h (m+1)).prev_used =
        (foldUp (inc_upd lenf P ((m+1) - skip)) 0 P.length (U64MAX, 0)).2 := by
      rw [hstep, ← hscan]
    have hprevsP : (incBlk lenf h (m+1)).prevs = P := by rw [hstep]
    have hltmax : (incBlk lenf h (m+1)).hashes_to_genesis < U64MAX := by
      rw [hhtg]
      have : U64MAX = U64MAX := rfl
      omega
    refine ⟨by rw [hhtg]; omega, fun _ => ⟨?_, hltmax, ?_, ?_⟩⟩
    · exact ⟨l.length, by rw [hprevsP]; omega, by rw [hprevsP]; exact hpass⟩
    · -- the selected entry passes the filter
      rcases c1 with heq | ⟨_, _, r3, _, _⟩
      · exfalso
        rw [hhtg, heq] at hltmax
        exact absurd hltmax (lt_irrefl _)
      · rw [hprevsP, hpuP]
        exact r3
    · -- the selected entry's blocknum is < i
      rcases c1 with heq | ⟨_, r2, _, _, _⟩
      · exfalso
        rw [hhtg, heq] at hltmax
        exact absurd hltmax (lt_irrefl _)
      · rw [hprevsP, hpuP]
        have hmem := getD_mem_of_lt P (⟨0,0⟩ : PathE)
          (foldUp (inc_upd lenf P ((m+1) - skip)) 0 P.length (U64MAX, 0)).2 (by omega)
        have hall := (inc_struct lenf h (m+1) (by omega)).2.2.1
        rw [hprevsP] at hall
        exact hall _ hmem

/-- `breadth_proof_len` wrapped in the C `len_func` signature (selected by
`--breadth`, incremental-proof-tree.c:344-349); the oracle ignores the
entries themselves and uses only `num_prevs` and the index. -/
def breadthLF : LenF := fun _prevs num_prevs tgt => breadth_proof_len num_prevs tgt

theorem breadthLF_bound (ps : List PathE) (t : Nat) (hl : ps.length ≤ 3) :
    breadthLF ps ps.length t ≤ 3 := by
  show breadth_proof_len ps.length t ≤ 3
  unfold breadth_proof_len
  have h4 : ps.length - t = 0 ∨ ps.length - t = 1 ∨ ps.length - t = 2 ∨
      ps.length - t = 3 := by omega
  rcases h4 with h | h | h | h <;> rw [h] <;> decide

/-- Claim C4, counterexample: block 1's path holds two entries that both
carry `block_index = 0` — the zeroed entry `calloc`ed for genesis and the
appended entry for block 0 — so its entries are not pairwise distinct. -/
theorem C4_counterexample :
    ¬ ((incBlk breadthLF (fun _ => U64MAX) 1).prevs.Pairwise
        (fun a b => a.blocknum ≠ b.blocknum)) := by
  obtain ⟨hp, _⟩ := inc_block1 breadthLF (fun _ => U64MAX)
  rw [hp]
  intro hpw
  rw [List.pairwise_cons] at hpw
  have hne := hpw.1 (⟨0, breadthLF [⟨0,0⟩, ⟨0,0⟩] 2 0⟩ : PathE) (by simp)
  exact hne rfl

/-- Claim C4, amended: the entries of block `i`'s path have pairwise
distinct `block_index` values for every block except block 1; block 1's
path always consists of exactly two entries, both with `block_index = 0`
(the zeroed genesis slot and the appended block-0 entry). -/
theorem C4_amended_path_uniqueness :
    (∀ (lenf : LenF) (h : Nat → Nat) (i : Nat), i ≠ 1 →
      (incBlk lenf h i).prevs.Pairwise (fun a b => a.blocknum ≠ b.blocknum)) ∧
    (∀ (lenf : LenF) (h : Nat → Nat),
      (incBlk lenf h 1).prevs.map PathE.blocknum = [0, 0]) := by
  constructor
  · intro lenf h i hne
    rcases i with _ | i
    · show ([(⟨0,0⟩ : PathE)]).Pairwise _
      simp
    · have h2 : 2 ≤ i + 1 := by omega
      have hpw := (inc_struct lenf h (i+1) (by omega)).2.2.2.2.2 h2
      exact hpw.imp (fun hlt => by omega)
  · intro lenf h
    rw [(inc_block1 lenf h).1]
    rfl

/-- Claim C4, witness for the amended theorem at block 2 (breadth oracle,
constant all-ones hash stream). -/
theorem C4_amended_witness :
    ((2:Nat) ≠ 1) ∧
    (incBlk breadthLF (fun _ => U64MAX) 2).prevs.Pairwise
      (fun a b => a.blocknum ≠ b.blocknum) :=
  ⟨by decide,
   C4_amended_path_uniqueness.1 breadthLF (fun _ => U64MAX) 2 (by decide)⟩

/-- Claim C5: with every generated hash nonzero (and a bound keeping costs
below the `-1ULL` sentinel), the candidate scan for every block `i ≥ 1`
finds at least one path entry within the skip window (the entry for block
`i-1` always qualifies since `skip ≥ 1`), so a best candidate is always
selected and `assert(best_distance != -1ULL)` never fails. -/
theorem C5_scan_always_selects :
    ∀ (lenf : LenF) (B : Nat) (h : Nat → Nat) (i : Nat),
      (∀ ps t, ps.length ≤ i + 1 → lenf ps ps.length t ≤ B) →
      (∀ j, 1 ≤ h j ∧ h j ≤ U64MAX) →
      2 * B * i < U64MAX → 1 ≤ i →
      (∃ j, j < (incBlk lenf h i).prevs.length ∧
        i - skipOf (h i) i ≤ ((incBlk lenf h i).prevs.getD j ⟨0,0⟩).blocknum) ∧
      (incBlk lenf h i).hashes_to_genesis ≠ U64MAX := by
  intro lenf B h i HB Hh Hbig hi
  obtain ⟨_, hsel⟩ := inc_master lenf h B i HB Hh Hbig i le_rfl
  obtain ⟨hex, hlt, _, _⟩ := hsel hi
  exact ⟨hex, by omega⟩

/-- Claim C5, witness at block 2 (breadth oracle bounded by 3 on the
occurring path lengths, constant all-ones hash stream). -/
theorem C5_scan_always_selects_witness :
    ((∀ (ps : List PathE) (t : Nat), ps.length ≤ 2 + 1 →
        breadthLF ps ps.length t ≤ 3) ∧
     (∀ j : Nat, 1 ≤ (fun _ : Nat => U64MAX) j ∧ (fun _ : Nat => U64MAX) j ≤ U64MAX) ∧
     2 * 3 * 2 < U64MAX ∧ (1:Nat) ≤ 2) ∧
    ((∃ j, j < (incBlk breadthLF (fun _ => U64MAX) 2).prevs.length ∧
        2 - skipOf ((fun _ : Nat => U64MAX) 2) 2 ≤
          ((incBlk breadthLF (fun _ => U64MAX) 2).prevs.getD j ⟨0,0⟩).blocknum) ∧
     (incBlk breadthLF (fun _ => U64MAX) 2).hashes_to_genesis ≠ U64MAX) :=
  ⟨⟨fun ps t hl => breadthLF_bound ps t hl,
    fun _ => ⟨show (1:Nat) ≤ U64MAX by decide, le_rfl⟩,
    by decide, by decide⟩,
   C5_scan_always_selects breadthLF 3 (fun _ => U64MAX) 2
     (fun ps t hl => breadthLF_bound ps t hl)
     (fun _ => ⟨show (1:Nat) ≤ U64MAX by decide, le_rfl⟩)
     (by decide) (by decide)⟩

/-- Claim C8: the ancestor chosen for block `i ≥ 1` — `step[i]` in the
chain simulator of `print_proof_lengths`, and the blocknum of the
`prev_used` path entry in the incremental accumulator — satisfies
`i - skip_i ≤ j < i`. -/
theorem C8_chosen_ancestor_skip_bound :
    (∀ (h : Nat → Nat) (t i : Nat),
      (∀ j, 1 ≤ h j ∧ h j ≤ U64MAX) → t < i →
      i - skipOf (h i) i ≤ (ttRun h t i).2.getD i 0 ∧
      (ttRun h t i).2.getD i 0 < i) ∧
    (∀ (lenf : LenF) (B : Nat) (h : Nat → Nat) (i : Nat),
      (∀ ps t, ps.length ≤ i + 1 → lenf ps ps.length t ≤ B) →
      (∀ j, 1 ≤ h j ∧ h j ≤ U64MAX) →
      2 * B * i < U64MAX → 1 ≤ i →
      i - skipOf (h i) i ≤
        ((incBlk lenf h i).prevs.getD (incBlk lenf h i).prev_used ⟨0,0⟩).blocknum ∧
      ((incBlk lenf h i).prevs.getD (incBlk lenf h i).prev_used ⟨0,0⟩).blocknum < i) := by
  constructor
  · intro h t i Hh hti
    obtain ⟨m, rfl⟩ : ∃ m, i = m + 1 := ⟨i - 1, by omega⟩
    have hlen2 := (ttRun_len h t m).2
    have hnle : ¬ (m + 1 ≤ t) := by omega
    set skip := skipOf (h (m+1)) (m+1) with hskip
    have hsk := skipOf_pos (Hh (m+1)).1 (Hh (m+1)).2 (by omega : 1 ≤ m + 1)
    rw [← hskip] at hsk
    have hrun : ttRun h t (m+1) =
        ((ttRun h t m).1 ++ [(ttRun h t m).1.getD (tt_scan (ttRun h t m).1 (m+1) skip) 0 + 1],
         (ttRun h t m).2 ++ [tt_scan (ttRun h t m).1 (m+1) skip]) := by
      simp only [ttRun, hnle, if_false]
    have hd : (ttRun h t (m+1)).2.getD (m+1) 0 =
        tt_scan (ttRun h t m).1 (m+1) skip := by
      rw [hrun]
      have := getD_snoc_len (ttRun h t m).2 (tt_scan (ttRun h t m).1 (m+1) skip) 0
      rw [hlen2] at this
      exact this
    rw [hd]
    have hpick := foldDown_pick_mem (ttRun h t m).1 (m + 1 - skip) skip (m + 1 - 1)
    have hscan : tt_scan (ttRun h t m).1 (m+1) skip =
        foldDown (fun j best =>
            if 1 + (ttRun h t m).1.getD j 0 < (ttRun h t m).1.getD best 0 then j
            else best)
          (m + 1 - skip) skip (m + 1 - 1) := rfl
    rw [hscan]
    rcases hpick with heq | ⟨h1, h2⟩
    · rw [heq]
      constructor <;> omega
    · constructor <;> omega
  · intro lenf B h i HB Hh Hbig hi
    obtain ⟨_, hsel⟩ := inc_master lenf h B i HB Hh Hbig i le_rfl
    obtain ⟨_, _, hlo, hhi⟩ := hsel hi
    exact ⟨hlo, hhi⟩

/-- Claim C8, witness: chain part at block 1 (target 0), incremental part
at block 2, both with the constant all-ones hash stream. -/
theorem C8_chosen_ancestor_witness :
    (((∀ j : Nat, 1 ≤ (fun _ : Nat => U64MAX) j ∧ (fun _ : Nat => U64MAX) j ≤ U64MAX) ∧
      (0:Nat) < 1) ∧
     (1 - skipOf ((fun _ : Nat => U64MAX) 1) 1 ≤ (ttRun (fun _ => U64MAX) 0 1).2.getD 1 0 ∧
      (ttRun (fun _ => U64MAX) 0 1).2.getD 1 0 < 1)) ∧
    ((2 - skipOf ((fun _ : Nat => U64MAX) 2) 2 ≤
        ((incBlk breadthLF (fun _ => U64MAX) 2).prevs.getD
          (incBlk breadthLF (fun _ => U64MAX) 2).prev_used ⟨0,0⟩).blocknum) ∧
     ((incBlk breadthLF (fun _ => U64MAX) 2).prevs.getD
        (incBlk breadthLF (fun _ => U64MAX) 2).prev_used ⟨0,0⟩).blocknum < 2) :=
  ⟨⟨⟨fun _ => ⟨show (1:Nat) ≤ U64MAX by decide, le_rfl⟩, by decide⟩,
    C8_chosen_ancestor_skip_bound.1 (fun _ => U64MAX) 0 1
      (fun _ => ⟨show (1:Nat) ≤ U64MAX by decide, le_rfl⟩) (by decide)⟩,
   C8_chosen_ancestor_skip_bound.2 breadthLF 3 (fun _ => U64MAX) 2
     (fun ps t hl => breadthLF_bound ps t hl)
     (fun _ => ⟨show (1:Nat) ≤ U64MAX by decide, le_rfl⟩)
     (by decide) (by decide)⟩

/-- Soundness of the memo flags: a node marked `fixed` really is the root
of a subtree complete down to `max_depth`. -/
def flagsOk (m : Nat) : Nat → MNode → Prop := fun d n =>
  match n with
  | .nil => True
  | .node v nd f a b =>
    (f = true → perfectB d m (MNode.node v nd f a b) = true) ∧
    flagsOk m (d+1) a ∧ flagsOk m (d+1) b

/-- Shape invariant of maaku subtrees: a subtree hanging at depth `d` is a
single fresh leaf; or has a perfect left child and an absent or well-shaped
right child; or a still-filling left child and no right child. -/
inductive Shape (m : Nat) : Nat → MNode → Prop where
  | leaf (v d : Nat) (f : Bool) (hd : d ≤ m) : Shape m d (.node v d f .nil .nil)
  | lperf0 (v d : Nat) (f : Bool) (a : MNode) (hd : d < m)
      (ha : perfectB (d+1) m a = true) : Shape m d (.node v d f a .nil)
  | lperf2 (v d : Nat) (f : Bool) (a b : MNode) (hd : d < m)
      (ha : perfectB (d+1) m a = true) (hb : Shape m (d+1) b) :
      Shape m d (.node v d f a b)
  | lfill (v d : Nat) (f : Bool) (a : MNode) (hd : d < m)
      (ha : Shape m (d+1) a) (hnp : perfectB (d+1) m a = false) :
      Shape m d (.node v d f a .nil)

theorem perfectB_strip (d m : Nat) (n : MNode) :
    perfectB d m (strip n) = perfectB d m n := by
  induction n generalizing d with
  | nil => rfl
  | node v nd f a b iha ihb =>
    simp only [strip, perfectB]
    by_cases hdm : d = m
    · simp [hdm, strip_nil_iff]
    · simp [hdm, iha, ihb]

theorem perfectB_le (d m : Nat) (n : MNode) (h : perfectB d m n = true) :
    d ≤ m := by
  induction n generalizing d with
  | nil => simp [perfectB] at h
  | node v nd f a b iha _ =>
    simp only [perfectB] at h
    by_cases hdm : d = m
    · omega
    · rw [if_neg hdm] at h
      simp at h
      have := iha (d+1) h.2.1
      omega

theorem perfectB_msize (d m : Nat) (n : MNode) (h : perfectB d m n = true) :
    msize n = 2 ^ (m - d + 1) - 1 := by
  induction n generalizing d with
  | nil => simp [perfectB] at h
  | node v nd f a b iha ihb =>
    simp only [perfectB] at h
    by_cases hdm : d = m
    · rw [if_pos hdm] at h
      simp at h
      obtain ⟨_, ha, hb⟩ := h
      subst hdm
      rw [ha, hb]
      simp [msize]
    · rw [if_neg hdm] at h
      simp at h
      obtain ⟨_, ha, hb⟩ := h
      have hle := perfectB_le _ _ _ ha
      have hsa := iha (d+1) ha
      have hsb := ihb (d+1) hb
      have hmd : m - d + 1 = (m - (d+1) + 1) + 1 := by omega
      have hpow : (2:Nat) ^ (m - (d+1) + 1) ≥ 1 := Nat.one_le_two_pow
      simp only [msize, hsa, hsb, hmd, pow_succ]
      omega

/-- A perfect subtree satisfies the shape invariant. -/
theorem perfectB_shape (d m : Nat) (n : MNode) (h : perfectB d m n = true) :
    Shape m d n := by
  induction n generalizing d with
  | nil => simp [perfectB] at h
  | node v nd f a b iha ihb =>
    have hnd : nd = d := by
      simp only [perfectB] at h
      by_cases hdm : d = m <;> [rw [if_pos hdm] at h; rw [if_neg hdm] at h] <;>
        simp at h <;> omega
    subst hnd
    simp only [perfectB] at h
    by_cases hdm : nd = m
    · rw [if_pos hdm] at h
      simp at h
      obtain ⟨ha, hb⟩ := h
      rw [ha, hb]
      exact Shape.leaf v nd f (by omega)
    · rw [if_neg hdm] at h
      simp at h
      obtain ⟨ha, hb⟩ := h
      have := perfectB_le _ _ _ ha
      exact Shape.lperf2 v nd f a b (by omega) ha (ihb _ hb)

/-- The shape invariant only depends on the stripped tree. -/
theorem shape_of_strip_eq (m : Nat) {d : Nat} {n n' : MNode}
    (hs : strip n = strip n') (hsh : Shape m d n) : Shape m d n' := by
  induction hsh generalizing n' with
  | leaf v d f hd =>
    cases n' with
    | nil => simp [strip] at hs
    | node v' nd' f' a' b' =>
      simp only [strip, MNode.node.injEq] at hs
      obtain ⟨hv, hd', -, ha, hb⟩ := hs
      have ha' : a' = .nil := strip_nil_iff.mp ha.symm
      have hb' : b' = .nil := strip_nil_iff.mp hb.symm
      subst hv hd' ha' hb'
      exact Shape.leaf v d f' hd
  | lperf0 v d f a hd ha =>
    cases n' with
    | nil => simp [strip] at hs
    | node v' nd' f' a' b' =>
      simp only [strip, MNode.node.injEq] at hs
      obtain ⟨hv, hd', -, hsa, hsb⟩ := hs
      have hb' : b' = .nil := strip_nil_iff.mp hsb.symm
      subst hv hd' hb'
      refine Shape.lperf0 v d f' a' hd ?_
      rw [← perfectB_strip, ← hsa, perfectB_strip]
      exact ha
  | lperf2 v d f a b hd ha hb ihb =>
    cases n' with
    | nil => simp [strip] at hs
    | node v' nd' f' a' b' =>
      simp only [strip, MNode.node.injEq] at hs
      obtain ⟨hv, hd', -, hsa, hsb⟩ := hs
      subst hv hd'
      refine Shape.lperf2 v d f' a' b' hd ?_ (ihb hsb)
      rw [← perfectB_strip, ← hsa, perfectB_strip]
      exact ha
  | lfill v d f a hd ha hnp iha =>
    cases n' with
    | nil => simp [strip] at hs
    | node v' nd' f' a' b' =>
      simp only [strip, MNode.node.injEq] at hs
      obtain ⟨hv, hd', -, hsa, hsb⟩ := hs
      have hb' : b' = .nil := strip_nil_iff.mp hsb.symm
      subst hv hd' hb'
      refine Shape.lfill v d f' a' hd (iha hsa) ?_
      rw [← perfectB_strip, ← hsa, perfectB_strip]
      exact hnp

theorem inc_depths_nil_iff {n : MNode} : inc_depths n = .nil ↔ n = .nil := by
  cases n <;> simp [inc_depths]

theorem msize_inc_depths (n : MNode) : msize (inc_depths n) = msize n := by
  induction n with
  | nil => rfl
  | node v d f a b iha ihb => simp [inc_depths, msize, iha, ihb]

theorem perfectB_inc (d m : Nat) (n : MNode) :
    perfectB (d+1) (m+1) (inc_depths n) = perfectB d m n := by
  induction n generalizing d with
  | nil => rfl
  | node v nd f a b iha ihb =>
    simp only [inc_depths, perfectB]
    have hdec : (decide (nd + 1 = d + 1)) = (decide (nd = d)) :=
      decide_eq_decide.mpr (by omega)
    by_cases hdm : d = m
    · rw [if_pos (by omega : d + 1 = m + 1), if_pos hdm, hdec]
      simp [inc_depths_nil_iff]
    · rw [if_neg (by omega : ¬ d + 1 = m + 1), if_neg hdm, iha, ihb, hdec]

theorem shape_inc (m : Nat) : ∀ {d : Nat} {n : MNode}, Shape m d n →
    Shape (m+1) (d+1) (inc_depths n) := by
  intro d n h
  induction h with
  | leaf v d f hd => exact Shape.leaf v (d+1) f (by omega)
  | lperf0 v d f a hd ha =>
    exact Shape.lperf0 v (d+1) f (inc_depths a) (by omega)
      (by rw [perfectB_inc]; exact ha)
  | lperf2 v d f a b hd ha hb ihb =>
    exact Shape.lperf2 v (d+1) f (inc_depths a) (inc_depths b) (by omega)
      (by rw [perfectB_inc]; exact ha) ihb
  | lfill v d f a hd ha hnp iha =>
    exact Shape.lfill v (d+1) f (inc_depths a) (by omega) iha
      (by rw [perfectB_inc]; exact hnp)

theorem flagsOk_inc (m : Nat) : ∀ (n : MNode) (d : Nat), flagsOk m d n →
    flagsOk (m+1) (d+1) (inc_depths n) := by
  intro n
  induction n with
  | nil => intro d _; trivial
  | node v nd f a b iha ihb =>
    intro d hF
    obtain ⟨hf, hFa, hFb⟩ := hF
    refine ⟨?_, iha _ hFa, ihb _ hFb⟩
    intro hft
    have hp := hf hft
    show perfectB (d+1) (m+1) (inc_depths (.node v nd f a b)) = true
    rw [perfectB_inc]
    exact hp

/-- Correctness of the memoizing `is_fixed` under the shape invariant and
sound flags: its boolean result is exactly perfectness down to `max_depth`,
and the flags it writes remain sound. -/
theorem is_fixed_correct (m : Nat) :
    ∀ (n : MNode) (d : Nat), Shape m d n → flagsOk m d n →
      (is_fixed m n).1 = perfectB d m n ∧ flagsOk m d (is_fixed m n).2 := by
  intro n
  induction n with
  | nil => intro d hS _; cases hS
  | node v nd f a b iha ihb =>
    intro d hS hF
    have hnd : nd = d := by cases hS <;> rfl
    subst hnd
    obtain ⟨hf, hFa, hFb⟩ := hF
    by_cases hft : f = true
    · have hperf := hf hft
      have hform : is_fixed m (.node v nd f a b) = (true, .node v nd f a b) := by
        simp only [is_fixed]
        rw [if_pos hft]
      rw [hform]
      exact ⟨hperf.symm, ⟨hf, hFa, hFb⟩⟩
    · by_cases hdm : nd = m
      · have hform : is_fixed m (.node v nd f a b) = (true, .node v nd true a b) := by
          simp only [is_fixed]
          rw [if_neg hft, if_pos hdm]
        rw [hform]
        have hab : a = .nil ∧ b = .nil := by
          cases hS with
          | leaf => exact ⟨rfl, rfl⟩
          | lperf0 _ _ _ _ hd _ => omega
          | lperf2 _ _ _ _ _ hd _ _ => omega
          | lfill _ _ _ _ hd _ _ => omega
        obtain ⟨ha, hb⟩ := hab
        subst ha hb
        constructor
        · show true = perfectB nd m (MNode.node v nd f .nil .nil)
          simp [perfectB, hdm]
        · refine ⟨fun _ => ?_, trivial, trivial⟩
          simp [perfectB, hdm]
      · by_cases hnil : a = .nil ∨ b = .nil
        · have hform : is_fixed m (.node v nd f a b) = (false, .node v nd f a b) := by
            simp only [is_fixed]
            rw [if_neg hft, if_neg hdm, if_pos hnil]
          rw [hform]
          constructor
          · show false = perfectB nd m (MNode.node v nd f a b)
            have : perfectB nd m (MNode.node v nd f a b) = false := by
              simp only [perfectB]
              rw [if_neg hdm]
              rcases hnil with h | h <;> subst h <;> simp [perfectB]
            rw [this]
          · exact ⟨hf, hFa, hFb⟩
        · push_neg at hnil
          obtain ⟨hanil, hbnil⟩ := hnil
          have hSab : perfectB (nd+1) m a = true ∧ Shape m (nd+1) b := by
            cases hS with
            | leaf => exact absurd rfl hanil
            | lperf0 _ _ _ _ hd hpa => exact absurd rfl hbnil
            | lperf2 _ _ _ _ _ hd hpa hSb => exact ⟨hpa, hSb⟩
            | lfill _ _ _ hd hSa hnp => exact absurd rfl hbnil
          obtain ⟨hpa, hSb⟩ := hSab
          obtain ⟨hra1, hra2⟩ := iha (nd+1) (perfectB_shape _ _ _ hpa) hFa
          obtain ⟨hrb1, hrb2⟩ := ihb (nd+1) hSb hFb
          have hra1t : (is_fixed m a).1 = true := by rw [hra1, hpa]
          have hform : is_fixed m (.node v nd f a b) =
              ((is_fixed m b).1,
               .node v nd (is_fixed m b).1 (is_fixed m a).2 (is_fixed m b).2) := by
            simp only [is_fixed]
            rw [if_neg hft, if_neg hdm,
              if_neg (show ¬ (a = MNode.nil ∨ b = MNode.nil) by push_neg; exact ⟨hanil, hbnil⟩)]
            rw [if_pos hra1t]
          rw [hform]
          have hpn : perfectB nd m (MNode.node v nd f a b) = perfectB (nd+1) m b := by
            simp only [perfectB]
            rw [if_neg hdm]
            simp [hpa]
          constructor
          · rw [hrb1, hpn]
          · refine ⟨?_, hra2, hrb2⟩
            intro hbt
            have hpb : perfectB (nd+1) m b = true := by rw [← hrb1, hbt]
            simp only [perfectB]
            rw [if_neg hdm]
            have h1 : perfectB (nd+1) m (is_fixed m a).2 = true := by
              rw [← perfectB_strip, strip_is_fixed, perfectB_strip]
              exact hpa
            have h2 : perfectB (nd+1) m (is_fixed m b).2 = true := by
              rw [← perfectB_strip, strip_is_fixed, perfectB_strip]
              exact hpb
            simp [h1, h2]

theorem shape_msize_le (m : Nat) : ∀ {d : Nat} {n : MNode}, Shape m d n →
    msize n ≤ 2 ^ (m - d + 1) - 1 := by
  intro d n h
  induction h with
  | leaf v d f hd =>
    have h2 : (2:Nat) ≤ 2 ^ (m - d + 1) := by
      calc (2:Nat) = 2 ^ 1 := rfl
      _ ≤ 2 ^ (m - d + 1) := Nat.pow_le_pow_right (by omega) (by omega)
    simp only [msize]
    omega
  | lperf0 v d f a hd ha =>
    have hsa := perfectB_msize _ _ _ ha
    have hmd : m - d + 1 = (m - (d+1) + 1) + 1 := by omega
    have hpow : (1:Nat) ≤ 2 ^ (m - (d+1) + 1) := Nat.one_le_two_pow
    simp only [msize, hsa]
    rw [hmd, pow_succ]
    omega
  | lperf2 v d f a b hd ha hb ihb =>
    have hsa := perfectB_msize _ _ _ ha
    have hmd : m - d + 1 = (m - (d+1) + 1) + 1 := by omega
    have hpow : (1:Nat) ≤ 2 ^ (m - (d+1) + 1) := Nat.one_le_two_pow
    simp only [msize, hsa]
    rw [hmd, pow_succ]
    omega
  | lfill v d f a hd ha hnp iha =>
    have hmd : m - d + 1 = (m - (d+1) + 1) + 1 := by omega
    have hpow : (1:Nat) ≤ 2 ^ (m - (d+1) + 1) := Nat.one_le_two_pow
    simp only [msize]
    rw [hmd, pow_succ]
    omega

/-- One-step unfolding of `add_at` on a node. -/
theorem add_at_node (m v val d : Nat) (f : Bool) (c0 c1 : MNode) :
    add_at m (.node val d f c0 c1) v =
      if c0 = .nil then .node v d f (.node val (d+1) false .nil .nil) c1
      else if (is_fixed m c0).1 = false then
        .node v d f (add_at m (is_fixed m c0).2 val) c1
      else if c1 = .nil then
        .node v d f (is_fixed m c0).2 (.node val (d+1) false .nil .nil)
      else
        .node v d f (is_fixed m c0).2 (add_at m (is_fixed m c1).2 val) := by
  rw [add_at.eq_def]

/-- `add_at` preserves the shape invariant and flag soundness of a
non-complete subtree and grows it by exactly one node. -/
theorem add_at_shape (m : Nat) : ∀ (k : Nat) (n : MNode) (v d : Nat), msize n ≤ k →
    Shape m d n → flagsOk m d n → perfectB d m n = false →
    Shape m d (add_at m n v) ∧ flagsOk m d (add_at m n v) ∧
    msize (add_at m n v) = msize n + 1 := by
  intro k
  induction k with
  | zero =>
    intro n v d hsz hS _ _
    cases n with
    | nil => cases hS
    | node _ _ _ _ _ => simp [msize] at hsz
  | succ k ih =>
    intro n v d hsz hS hF hnp
    cases n with
    | nil => cases hS
    | node val nd f c0 c1 =>
      have hnd : nd = d := by cases hS <;> rfl
      subst hnd
      obtain ⟨hfl, hFa, hFb⟩ := hF
      have hf : f = false := by
        cases hfq : f
        · rfl
        · exact absurd (hfl hfq) (by rw [hnp]; simp)
      subst hf
      have hsz0 : msize c0 ≤ k := by simp only [msize] at hsz; omega
      have hsz1 : msize c1 ≤ k := by simp only [msize] at hsz; omega
      rw [add_at_node]
      by_cases h0 : c0 = .nil
      · -- fresh leaf: hang the carried value as the left child
        rw [if_pos h0]
        subst h0
        have hc1 : c1 = .nil ∧ nd ≤ m := by
          cases hS with
          | leaf v' d' f' hd' => exact ⟨rfl, hd'⟩
          | lperf0 v' d' f' a' hd' ha' => simp [perfectB] at ha'
          | lperf2 v' d' f' a' b' hd' ha' hb' => simp [perfectB] at ha'
          | lfill v' d' f' a' hd' ha' hnp' => cases ha'
        obtain ⟨hc1, hdm⟩ := hc1
        subst hc1
        have hdlt : nd < m := by
          rcases Nat.lt_or_ge nd m with h | h
          · exact h
          · exfalso
            have hdm' : nd = m := by omega
            rw [show perfectB nd m (MNode.node val nd false .nil .nil) = true by
              simp [perfectB, hdm']] at hnp
            exact absurd hnp (by simp)
        refine ⟨?_, ?_, by simp [msize]⟩
        · by_cases hd1 : nd + 1 = m
          · exact Shape.lperf0 v nd false _ hdlt (by simp [perfectB, hd1])
          · exact Shape.lfill v nd false _ hdlt
              (Shape.leaf val (nd+1) false (by omega)) (by simp [perfectB, hd1])
        · exact ⟨fun h => absurd h (by simp),
            ⟨fun h => absurd h (by simp), trivial, trivial⟩, trivial⟩
      · rw [if_neg h0]
        by_cases hfix : (is_fixed m c0).1 = false
        · -- left child not complete: descend left (the lfill case)
          rw [if_pos hfix]
          have hlf : Shape m (nd+1) c0 ∧ perfectB (nd+1) m c0 = false ∧
              c1 = .nil ∧ nd < m := by
            cases hS with
            | leaf v' d' f' hd' => exact absurd rfl h0
            | lperf0 v' d' f' a' hd' ha' =>
              have hq := (is_fixed_correct m c0 (nd+1) (perfectB_shape _ _ _ ha') hFa).1
              rw [ha'] at hq
              rw [hq] at hfix
              exact absurd hfix (by simp)
            | lperf2 v' d' f' a' b' hd' ha' hb' =>
              have hq := (is_fixed_correct m c0 (nd+1) (perfectB_shape _ _ _ ha') hFa).1
              rw [ha'] at hq
              rw [hq] at hfix
              exact absurd hfix (by simp)
            | lfill v' d' f' a' hd' ha' hnp' => exact ⟨ha', hnp', rfl, hd'⟩
          obtain ⟨hSa, hnpa, hc1, hdlt⟩ := hlf
          subst hc1
          obtain ⟨hra1, hra2⟩ := is_fixed_correct m c0 (nd+1) hSa hFa
          have hSa' : Shape m (nd+1) (is_fixed m c0).2 :=
            shape_of_strip_eq m (strip_is_fixed m c0).symm hSa
          have hnpa' : perfectB (nd+1) m (is_fixed m c0).2 = false := by
            rw [← perfectB_strip, strip_is_fixed, perfectB_strip]
            exact hnpa
          have hszra : msize (is_fixed m c0).2 ≤ k := by
            rw [msize_is_fixed]
            exact hsz0
          obtain ⟨hS', hF', hm'⟩ := ih (is_fixed m c0).2 val (nd+1) hszra hSa' hra2 hnpa'
          refine ⟨?_, ?_, ?_⟩
          · by_cases hp : perfectB (nd+1) m (add_at m (is_fixed m c0).2 val) = true
            · exact Shape.lperf0 v nd false _ hdlt hp
            · exact Shape.lfill v nd false _ hdlt hS' (by simpa using hp)
          · exact ⟨fun h => absurd h (by simp), hF', trivial⟩
          · simp only [msize, hm', msize_is_fixed]
            omega
        · have hfixt : (is_fixed m c0).1 = true := by
            cases hq : (is_fixed m c0).1
            · exact absurd hq hfix
            · rfl
          rw [if_neg (show ¬ (is_fixed m c0).1 = false by simp [hfixt])]
          by_cases h1 : c1 = .nil
          · -- left perfect, right empty: hang the carried value on the right
            rw [if_pos h1]
            subst h1
            have hlp : perfectB (nd+1) m c0 = true ∧ nd < m := by
              cases hS with
              | leaf v' d' f' hd' => exact absurd rfl h0
              | lperf0 v' d' f' a' hd' ha' => exact ⟨ha', hd'⟩
              | lperf2 v' d' f' a' b' hd' ha' hb' =>
                exact absurd hb' (by intro hb; cases hb)
              | lfill v' d' f' a' hd' ha' hnp' =>
                have hq := (is_fixed_correct m c0 (nd+1) ha' hFa).1
                rw [hnp'] at hq
                rw [hq] at hfixt
                exact absurd hfixt (by simp)
            obtain ⟨hpa, hdlt⟩ := hlp
            obtain ⟨hra1, hra2⟩ := is_fixed_correct m c0 (nd+1)
              (perfectB_shape _ _ _ hpa) hFa
            have hpa' : perfectB (nd+1) m (is_fixed m c0).2 = true := by
              rw [← perfectB_strip, strip_is_fixed, perfectB_strip]
              exact hpa
            refine ⟨?_, ?_, ?_⟩
            · exact Shape.lperf2 v nd false _ _ hdlt hpa'
                (Shape.leaf val (nd+1) false (by omega))
            · exact ⟨fun h => absurd h (by simp), hra2,
                ⟨fun h => absurd h (by simp), trivial, trivial⟩⟩
            · simp only [msize, msize_is_fixed]
          · -- left perfect, right filling: descend right
            rw [if_neg h1]
            have hlp : perfectB (nd+1) m c0 = true ∧ Shape m (nd+1) c1 ∧ nd < m := by
              cases hS with
              | leaf v' d' f' hd' => exact absurd rfl h0
              | lperf0 v' d' f' a' hd' ha' => exact absurd rfl h1
              | lperf2 v' d' f' a' b' hd' ha' hb' => exact ⟨ha', hb', hd'⟩
              | lfill v' d' f' a' hd' ha' hnp' => exact absurd rfl h1
            obtain ⟨hpa, hSb, hdlt⟩ := hlp
            obtain ⟨hra1, hra2⟩ := is_fixed_correct m c0 (nd+1)
              (perfectB_shape _ _ _ hpa) hFa
            obtain ⟨hrb1, hrb2⟩ := is_fixed_correct m c1 (nd+1) hSb hFb
            have hpa' : perfectB (nd+1) m (is_fixed m c0).2 = true := by
              rw [← perfectB_strip, strip_is_fixed, perfectB_strip]
              exact hpa
            have hnpb : perfectB (nd+1) m c1 = false := by
              rcases hq : perfectB (nd+1) m c1 with _ | _
              · rfl
              · exfalso
                rw [show perfectB nd m (MNode.node val nd false c0 c1) = true by
                  simp only [perfectB]
                  rw [if_neg (by omega : ¬ nd = m)]
                  simp [hpa, hq]] at hnp
                exact absurd hnp (by simp)
            have hSb' : Shape m (nd+1) (is_fixed m c1).2 :=
              shape_of_strip_eq m (strip_is_fixed m c1).symm hSb
            have hnpb' : perfectB (nd+1) m (is_fixed m c1).2 = false := by
              rw [← perfectB_strip, strip_is_fixed, perfectB_strip]
              exact hnpb
            have hszrb : msize (is_fixed m c1).2 ≤ k := by
              rw [msize_is_fixed]
              exact hsz1
            obtain ⟨hS', hF', hm'⟩ := ih (is_fixed m c1).2 val (nd+1) hszrb hSb' hrb2 hnpb'
            refine ⟨?_, ?_, ?_⟩
            · exact Shape.lperf2 v nd false _ _ hdlt hpa' hS'
            · exact ⟨fun h => absurd h (by simp), hra2, hF'⟩
            · simp only [msize, hm', msize_is_fixed]
              omega


theorem msize_zero {n : MNode} (h : msize n = 0) : n = .nil := by
  cases n with
  | nil => rfl
  | node v d f a b => simp [msize] at h

/-- The memoization performed on the root's left child by the
`assert(is_fixed(tree, tree->root->child[0]))` call (maakutree.c:105). -/
def memo_left (m : Nat) : MNode → MNode
  | .node v dd f c0 c1 => .node v dd f (is_fixed m c0).2 c1
  | .nil => .nil

theorem add_maaku_node_not_fixed (t : MaakuTree) (value : Nat)
    (h0 : t.root ≠ .nil) (h1 : (is_fixed t.max_depth t.root).1 = false) :
    add_maaku_node t value =
      ⟨t.max_depth,
       add_at t.max_depth (memo_left t.max_depth (is_fixed t.max_depth t.root).2)
         value⟩ := by
  cases hm : (is_fixed t.max_depth t.root).2 with
  | nil => simp [add_maaku_node, h0, h1, hm, memo_left]
  | node v d f a b => simp [add_maaku_node, h0, h1, hm, memo_left]

/-- The `assert(is_fixed(tree, tree->root->child[0]))` call before `add_at`
only memoizes flags inside the left child: the resulting root is
strip-equal to the original and keeps sound flags. -/
theorem assert_memo (m : Nat) (n : MNode) (d : Nat) (hS : Shape m d n)
    (hF : flagsOk m d n) :
    strip (memo_left m n) = strip n ∧ flagsOk m d (memo_left m n) := by
  cases n with
  | nil => exact ⟨rfl, trivial⟩
  | node v dd f c0 c1 =>
    obtain ⟨hf, hFa, hFb⟩ := hF
    have hnd : dd = d := by cases hS <;> rfl
    subst hnd
    have hstrip : strip (MNode.node v dd f (is_fixed m c0).2 c1) =
        strip (MNode.node v dd f c0 c1) := by
      simp [strip, strip_is_fixed]
    refine ⟨hstrip, ?_, ?_, hFb⟩
    · intro hft
      rw [← perfectB_strip, hstrip, perfectB_strip]
      exact hf hft
    · -- flags in the left child stay sound after the memoizing call
      cases hS with
      | leaf v' d' f' hd' => trivial
      | lperf0 v' d' f' a' hd' ha' =>
        exact (is_fixed_correct m c0 (dd+1) (perfectB_shape _ _ _ ha') hFa).2
      | lperf2 v' d' f' a' b' hd' ha' hb' =>
        exact (is_fixed_correct m c0 (dd+1) (perfectB_shape _ _ _ ha') hFa).2
      | lfill v' d' f' a' hd' ha' hnp' =>
        exact (is_fixed_correct m c0 (dd+1) ha' hFa).2

/-- Master invariant of the maaku tree after `k` insertions: the shape
invariant and sound flags hold, the size is `k`, and the tree is either the
very first node or has a perfect left subtree hanging off the root. -/
theorem maaku_master : ∀ k : Nat, 1 ≤ k →
    Shape (buildMaaku k).max_depth 0 (buildMaaku k).root ∧
    flagsOk (buildMaaku k).max_depth 0 (buildMaaku k).root ∧
    msize (buildMaaku k).root = k ∧
    ((k = 1 ∧ (buildMaaku k).max_depth = 0) ∨
      ∃ v f a b, (buildMaaku k).root = MNode.node v 0 f a b ∧
        perfectB 1 (buildMaaku k).max_depth a = true) := by
  intro k
  induction k with
  | zero => omega
  | succ k ih =>
    intro _
    rcases Nat.eq_zero_or_pos k with rfl | hk
    · have h1 : buildMaaku 1 = ⟨0, .node 0 0 false .nil .nil⟩ := rfl
      rw [h1]
      exact ⟨Shape.leaf 0 0 false le_rfl,
        ⟨fun h => absurd h (by simp), trivial, trivial⟩, rfl, Or.inl ⟨rfl, rfl⟩⟩
    · obtain ⟨hS, hF, hsz, htop⟩ := ih hk
      have hbuild : buildMaaku (k+1) = add_maaku_node (buildMaaku k) k := rfl
      set t := buildMaaku k with ht
      have hroot_ne : t.root ≠ .nil := by
        intro hc
        rw [hc] at hsz
        simp only [msize] at hsz
        omega
      obtain ⟨hfx1, hfx2⟩ := is_fixed_correct t.max_depth t.root 0 hS hF
      by_cases hperf : perfectB 0 t.max_depth t.root = true
      · -- whole tree complete: start a new level
        have hfix : (is_fixed t.max_depth t.root).1 = true := by
          rw [hfx1]; exact hperf
        have hform : add_maaku_node t k =
            ⟨t.max_depth + 1,
             .node k 0 false (inc_depths (is_fixed t.max_depth t.root).2) .nil⟩ := by
          simp [add_maaku_node, hroot_ne, hfix]
        rw [hbuild, hform]
        have hperf' : perfectB 0 t.max_depth (is_fixed t.max_depth t.root).2 = true := by
          rw [← perfectB_strip, strip_is_fixed, perfectB_strip]
          exact hperf
        have hpinc : perfectB 1 (t.max_depth + 1)
            (inc_depths (is_fixed t.max_depth t.root).2) = true := by
          rw [show (1:Nat) = 0 + 1 from rfl, perfectB_inc]
          exact hperf'
        refine ⟨Shape.lperf0 k 0 false _ (Nat.succ_pos _) hpinc, ?_, ?_, ?_⟩
        · refine ⟨fun h => absurd h (by simp), ?_, trivial⟩
          exact flagsOk_inc t.max_depth _ 0 hfx2
        · show 1 + msize (inc_depths (is_fixed t.max_depth t.root).2) + msize .nil = k + 1
          rw [msize_inc_depths, msize_is_fixed]
          simp only [msize]
          omega
        · exact Or.inr ⟨k, false, _, .nil, rfl, hpinc⟩
      · -- tree not complete: swap-descend insertion
        have hfix : (is_fixed t.max_depth t.root).1 = false := by
          rw [hfx1]
          cases hq : perfectB 0 t.max_depth t.root
          · rfl
          · exact absurd hq hperf
        have hSr2 : Shape t.max_depth 0 (is_fixed t.max_depth t.root).2 :=
          shape_of_strip_eq t.max_depth (strip_is_fixed t.max_depth t.root).symm hS
        obtain ⟨hstr2, hFr2⟩ := assert_memo t.max_depth
          (is_fixed t.max_depth t.root).2 0 hSr2 hfx2
        set r2 := memo_left t.max_depth (is_fixed t.max_depth t.root).2 with hr2
        have hform : add_maaku_node t k = ⟨t.max_depth, add_at t.max_depth r2 k⟩ := by
          rw [add_maaku_node_not_fixed t k hroot_ne hfix]
        have hstr2' : strip r2 = strip t.root := by
          rw [hstr2, strip_is_fixed]
        have hSr2' : Shape t.max_depth 0 r2 :=
          shape_of_strip_eq t.max_depth hstr2'.symm hS
        have hnp2 : perfectB 0 t.max_depth r2 = false := by
          rw [← perfectB_strip, hstr2', perfectB_strip]
          cases hq : perfectB 0 t.max_depth t.root
          · rfl
          · exact absurd hq hperf
        have hsz2 : msize r2 = k := by
          rw [← msize_strip, hstr2', msize_strip]
          exact hsz
        obtain ⟨hS', hF', hm'⟩ := add_at_shape t.max_depth (msize r2) r2 k 0
          le_rfl hSr2' hFr2 hnp2
        rw [hbuild, hform]
        refine ⟨hS', hF', by rw [hm', hsz2], ?_⟩
        -- the root keeps a perfect left subtree
        rcases htop with ⟨hk1, hm0⟩ | ⟨vr, fr, ar, br, hroot, hpa⟩
        · -- k = 1 and max_depth = 0: the tree would be complete, contradiction
          exfalso
          subst hk1
          cases hroot : t.root with
          | nil => exact hroot_ne hroot
          | node vr dr fr ar br =>
            rw [hroot] at hsz
            simp only [msize] at hsz
            have har : ar = .nil := msize_zero (by omega)
            have hbr : br = .nil := msize_zero (by omega)
            subst har hbr
            rw [hroot] at hS
            have hdr : dr = 0 := by cases hS <;> rfl
            subst hdr
            rw [hroot, hm0] at hperf
            exact hperf (by simp [perfectB])
        · -- the IH's perfect left subtree survives the insertion
          rw [hroot] at hstr2'
          cases hr2c : r2 with
          | nil => rw [hr2c] at hstr2'; simp [strip] at hstr2'
          | node v2 d2 f2 a2 b2 =>
            rw [hr2c] at hstr2'
            simp only [strip, MNode.node.injEq] at hstr2'
            obtain ⟨hv2, hd2, -, hsa2, hsb2⟩ := hstr2'
            have hpa2 : perfectB 1 t.max_depth a2 = true := by
              rw [← perfectB_strip, hsa2, perfectB_strip]
              exact hpa
            have ha2ne : a2 ≠ .nil := by
              intro hc
              rw [hc] at hpa2
              simp [perfectB] at hpa2
            rw [hr2c] at hFr2
            obtain ⟨hf2, hFa2, hFb2⟩ := hFr2
            have hfixa2 : (is_fixed t.max_depth a2).1 = true := by
              rw [(is_fixed_correct t.max_depth a2 1
                (perfectB_shape _ _ _ hpa2) hFa2).1]
              exact hpa2
            have hpafix : perfectB 1 t.max_depth (is_fixed t.max_depth a2).2 = true := by
              rw [← perfectB_strip, strip_is_fixed, perfectB_strip]
              exact hpa2
            have hd20 : d2 = 0 := hd2
            subst hd20
            rw [add_at_node]
            rw [if_neg ha2ne, if_neg (by simp [hfixa2])]
            by_cases hb2 : b2 = .nil
            · rw [if_pos hb2]
              exact Or.inr ⟨k, f2, _, _, rfl, hpafix⟩
            · rw [if_neg hb2]
              exact Or.inr ⟨k, f2, _, _, rfl, hpafix⟩

/-- The literal depth-bound of claim C6: every node's `depth` field is at
most the tree's `max_depth` (the fragment of `check_node` that C6 states). -/
def depths_le (md : Nat) : MNode → Bool
  | .nil => true
  | .node _ nd _ a b => decide (nd ≤ md) && depths_le md a && depths_le md b

theorem perfectB_check (m : Nat) : ∀ (n : MNode) (d : Nat),
    perfectB d m n = true → check_node m n d = true := by
  intro n
  induction n with
  | nil => intro d _; rfl
  | node v nd f a b iha ihb =>
    intro d h
    have hnd : nd = d := by
      simp only [perfectB] at h
      by_cases hdm : d = m <;> [rw [if_pos hdm] at h; rw [if_neg hdm] at h] <;>
        simp at h <;> omega
    subst hnd
    have hle : nd ≤ m := perfectB_le _ _ _ h
    simp only [perfectB] at h
    by_cases hdm : nd = m
    · rw [if_pos hdm] at h
      simp at h
      obtain ⟨ha, hb⟩ := h
      rw [ha, hb]
      simp [check_node, hle]
    · rw [if_neg hdm] at h
      simp at h
      obtain ⟨ha, hb⟩ := h
      simp [check_node, hle, iha _ ha, ihb _ hb]

/-- A tree satisfying the shape invariant passes `check_node`. -/
theorem shape_check (m : Nat) {d : Nat} {n : MNode} (hS : Shape m d n) :
    check_node m n d = true := by
  induction hS with
  | leaf v d f hd => simp [check_node, hd]
  | lperf0 v d f a hd ha =>
    simp [check_node, Nat.le_of_lt hd, perfectB_check m a (d+1) ha]
  | lperf2 v d f a b hd ha hb ihb =>
    simp [check_node, Nat.le_of_lt hd, perfectB_check m a (d+1) ha, ihb]
  | lfill v d f a hd ha hnp iha =>
    simp [check_node, Nat.le_of_lt hd, iha]

theorem check_depths_le (m : Nat) : ∀ (n : MNode) (d : Nat),
    check_node m n d = true → depths_le m n = true := by
  intro n
  induction n with
  | nil => intro d _; rfl
  | node v nd f a b iha ihb =>
    intro d h
    simp only [check_node, Bool.and_eq_true, decide_eq_true_eq] at h
    obtain ⟨⟨⟨-, hle⟩, ha⟩, hb⟩ := h
    simp [depths_le, hle, iha _ ha, ihb _ hb]

/-- C6: after any sequence of `k ≥ 1` insertions into an initially empty
maaku tree, every node's `depth` field is at most the tree's `max_depth`,
and `max_depth = ⌊log2 k⌋`. -/
theorem C6_maaku_depth_bound (k : Nat) (hk : 1 ≤ k) :
    depths_le (buildMaaku k).max_depth (buildMaaku k).root = true ∧
    (buildMaaku k).max_depth = Nat.log 2 k := by
  obtain ⟨hS, -, hsz, htop⟩ := maaku_master k hk
  refine ⟨check_depths_le _ _ 0 (shape_check _ hS), ?_⟩
  rcases htop with ⟨hk1, hm0⟩ | ⟨v, f, a, b, hroot, hpa⟩
  · rw [hm0, hk1, Nat.log_one_right]
  · have hm1 : 1 ≤ (buildMaaku k).max_depth := perfectB_le _ _ _ hpa
    have hsa : msize a = 2 ^ ((buildMaaku k).max_depth - 1 + 1) - 1 :=
      perfectB_msize _ _ _ hpa
    have hmm : (buildMaaku k).max_depth - 1 + 1 = (buildMaaku k).max_depth := by
      omega
    rw [hmm] at hsa
    have hpow1 : (1:Nat) ≤ 2 ^ (buildMaaku k).max_depth := Nat.one_le_two_pow
    have hszd : 1 + msize a + msize b = k := by
      rw [← hsz, hroot]
      simp [msize]
    have hup : msize (buildMaaku k).root ≤ 2 ^ ((buildMaaku k).max_depth + 1) - 1 := by
      have h := shape_msize_le _ hS
      have hmm2 : (buildMaaku k).max_depth - 0 + 1 = (buildMaaku k).max_depth + 1 := by
        omega
      rwa [hmm2] at h
    have hlow : 2 ^ (buildMaaku k).max_depth ≤ k := by omega
    have hhigh : k < 2 ^ ((buildMaaku k).max_depth + 1) := by
      have hp : (1:Nat) ≤ 2 ^ ((buildMaaku k).max_depth + 1) := Nat.one_le_two_pow
      omega
    exact (Nat.log_eq_of_pow_le_of_lt_pow hlow hhigh).symm

theorem C6_maaku_depth_bound_witness :
    1 ≤ 5 ∧ (depths_le (buildMaaku 5).max_depth (buildMaaku 5).root = true ∧
      (buildMaaku 5).max_depth = Nat.log 2 5) :=
  ⟨by decide, C6_maaku_depth_bound 5 (by decide)⟩

theorem allLt_strip (v : Nat) : ∀ n : MNode, allLt v (strip n) = allLt v n := by
  intro n
  induction n with
  | nil => rfl
  | node w d f a b iha ihb => simp [strip, allLt, iha, ihb]

theorem heapS_strip : ∀ n : MNode, heapS (strip n) = heapS n := by
  intro n
  induction n with
  | nil => rfl
  | node w d f a b iha ihb => simp [strip, heapS, allLt_strip, iha, ihb]

theorem allLt_is_fixed (m v : Nat) (n : MNode) :
    allLt v (is_fixed m n).2 = allLt v n := by
  rw [← allLt_strip, strip_is_fixed, allLt_strip]

theorem heapS_is_fixed (m : Nat) (n : MNode) :
    heapS (is_fixed m n).2 = heapS n := by
  rw [← heapS_strip, strip_is_fixed, heapS_strip]

theorem allLt_inc (v : Nat) : ∀ n : MNode, allLt v (inc_depths n) = allLt v n := by
  intro n
  induction n with
  | nil => rfl
  | node w d f a b iha ihb => simp [inc_depths, allLt, iha, ihb]

theorem heapS_inc : ∀ n : MNode, heapS (inc_depths n) = heapS n := by
  intro n
  induction n with
  | nil => rfl
  | node w d f a b iha ihb => simp [inc_depths, heapS, allLt_inc, iha, ihb]

theorem allLt_mono {v w : Nat} (hvw : v ≤ w) :
    ∀ n : MNode, allLt v n = true → allLt w n = true := by
  intro n
  induction n with
  | nil => intro _; rfl
  | node x d f a b iha ihb =>
    intro h
    simp only [allLt, Bool.and_eq_true, decide_eq_true_eq] at h ⊢
    exact ⟨⟨by omega, iha h.1.2⟩, ihb h.2⟩

theorem add_at_nil (m v : Nat) : add_at m .nil v = .nil := by
  rw [add_at.eq_def]

/-- The swap-and-descend insertion preserves the strong heap property when
the inserted value dominates the subtree, and the result's values are the
old values plus the inserted one. -/
theorem add_at_heap (m : Nat) : ∀ (k : Nat) (n : MNode) (v : Nat), msize n ≤ k →
    heapS n = true → allLt v n = true →
    heapS (add_at m n v) = true ∧
    ∀ w, v < w → allLt w n = true → allLt w (add_at m n v) = true := by
  intro k
  induction k with
  | zero =>
    intro n v hsz _ _
    have hn : n = .nil := msize_zero (by omega)
    subst hn
    rw [add_at_nil]
    exact ⟨rfl, fun _ _ _ => rfl⟩
  | succ k ih =>
    intro n v hsz hh ha
    cases n with
    | nil =>
      rw [add_at_nil]
      exact ⟨rfl, fun _ _ _ => rfl⟩
    | node val d f c0 c1 =>
      simp only [heapS, Bool.and_eq_true] at hh
      obtain ⟨⟨⟨haa, hab⟩, hha⟩, hhb⟩ := hh
      simp only [allLt, Bool.and_eq_true, decide_eq_true_eq] at ha
      obtain ⟨⟨hval, hva⟩, hvb⟩ := ha
      simp only [msize] at hsz
      rw [add_at_node]
      by_cases h0 : c0 = .nil
      · rw [if_pos h0]
        constructor
        · simp [heapS, allLt, hval, hvb, hhb]
        · intro w hw hwa
          simp only [allLt, Bool.and_eq_true, decide_eq_true_eq] at hwa
          obtain ⟨⟨hwval, -⟩, hwa1⟩ := hwa
          simp [allLt, hw, hwval, hwa1]
      · rw [if_neg h0]
        have h0p : 1 ≤ msize c0 := by
          cases c0 with
          | nil => exact absurd rfl h0
          | node _ _ _ _ _ => simp only [msize]; omega
        by_cases hfx : (is_fixed m c0).1 = false
        · rw [if_pos hfx]
          obtain ⟨ihh, ihw⟩ := ih (is_fixed m c0).2 val
            (by rw [msize_is_fixed]; omega)
            (by rw [heapS_is_fixed]; exact hha)
            (by rw [allLt_is_fixed]; exact haa)
          constructor
          · have hvL : allLt v (add_at m (is_fixed m c0).2 val) = true :=
              ihw v hval (by rw [allLt_is_fixed]; exact hva)
            simp [heapS, ihh, hhb, hvb, hvL]
          · intro w hw hwa
            simp only [allLt, Bool.and_eq_true, decide_eq_true_eq] at hwa
            obtain ⟨⟨hwval, hwa0⟩, hwa1⟩ := hwa
            have hwL : allLt w (add_at m (is_fixed m c0).2 val) = true :=
              ihw w hwval (by rw [allLt_is_fixed]; exact hwa0)
            simp [allLt, hw, hwL, hwa1]
        · rw [if_neg hfx]
          by_cases h1 : c1 = .nil
          · rw [if_pos h1]
            constructor
            · have hva' : allLt v (is_fixed m c0).2 = true := by
                rw [allLt_is_fixed]; exact hva
              have hha' : heapS (is_fixed m c0).2 = true := by
                rw [heapS_is_fixed]; exact hha
              simp [heapS, allLt, hval, hva', hha']
            · intro w hw hwa
              simp only [allLt, Bool.and_eq_true, decide_eq_true_eq] at hwa
              obtain ⟨⟨hwval, hwa0⟩, -⟩ := hwa
              have hwa0' : allLt w (is_fixed m c0).2 = true := by
                rw [allLt_is_fixed]; exact hwa0
              simp [allLt, hw, hwval, hwa0']
          · rw [if_neg h1]
            have h1p : 1 ≤ msize c1 := by
              cases c1 with
              | nil => exact absurd rfl h1
              | node _ _ _ _ _ => simp only [msize]; omega
            obtain ⟨ihh, ihw⟩ := ih (is_fixed m c1).2 val
              (by rw [msize_is_fixed]; omega)
              (by rw [heapS_is_fixed]; exact hhb)
              (by rw [allLt_is_fixed]; exact hab)
            constructor
            · have hvR : allLt v (add_at m (is_fixed m c1).2 val) = true :=
                ihw v hval (by rw [allLt_is_fixed]; exact hvb)
              have hva' : allLt v (is_fixed m c0).2 = true := by
                rw [allLt_is_fixed]; exact hva
              have hha' : heapS (is_fixed m c0).2 = true := by
                rw [heapS_is_fixed]; exact hha
              simp [heapS, hva', hha', ihh, hvR]
            · intro w hw hwa
              simp only [allLt, Bool.and_eq_true, decide_eq_true_eq] at hwa
              obtain ⟨⟨hwval, hwa0⟩, hwa1⟩ := hwa
              have hwR : allLt w (add_at m (is_fixed m c1).2 val) = true :=
                ihw w hwval (by rw [allLt_is_fixed]; exact hwa1)
              have hwa0' : allLt w (is_fixed m c0).2 = true := by
                rw [allLt_is_fixed]; exact hwa0
              simp [allLt, hw, hwa0', hwR]

theorem strip_memo_left (m : Nat) : ∀ n : MNode,
    strip (memo_left m n) = strip n := by
  intro n
  cases n with
  | nil => rfl
  | node v d f c0 c1 => simp [memo_left, strip, strip_is_fixed]

/-- Heap master invariant: after `k` insertions the tree is a strong
max-heap and all its values are below `k`. -/
theorem maaku_heap : ∀ k : Nat,
    heapS (buildMaaku k).root = true ∧ allLt k (buildMaaku k).root = true := by
  intro k
  induction k with
  | zero => exact ⟨rfl, rfl⟩
  | succ k ih =>
    obtain ⟨hh, ha⟩ := ih
    have hbuild : buildMaaku (k+1) = add_maaku_node (buildMaaku k) k := rfl
    set t := buildMaaku k with ht
    by_cases h0 : t.root = .nil
    · have hform : add_maaku_node t k = ⟨0, .node k 0 false .nil .nil⟩ := by
        simp [add_maaku_node, h0]
      rw [hbuild, hform]
      constructor
      · simp [heapS, allLt]
      · simp [allLt]
    · by_cases hfx : (is_fixed t.max_depth t.root).1 = true
      · have hform : add_maaku_node t k =
            ⟨t.max_depth + 1,
             .node k 0 false (inc_depths (is_fixed t.max_depth t.root).2) .nil⟩ := by
          simp [add_maaku_node, h0, hfx]
        rw [hbuild, hform]
        constructor
        · have h1 : allLt k (inc_depths (is_fixed t.max_depth t.root).2) = true := by
            rw [allLt_inc, allLt_is_fixed]; exact ha
          have h2 : heapS (inc_depths (is_fixed t.max_depth t.root).2) = true := by
            rw [heapS_inc, heapS_is_fixed]; exact hh
          simp [heapS, allLt, h1, h2]
        · have h1 : allLt (k+1) (inc_depths (is_fixed t.max_depth t.root).2) = true := by
            rw [allLt_inc, allLt_is_fixed]
            exact allLt_mono (Nat.le_succ k) _ ha
          simp [allLt, h1]
      · have hfx' : (is_fixed t.max_depth t.root).1 = false := by
          cases hq : (is_fixed t.max_depth t.root).1
          · rfl
          · exact absurd hq hfx
        have hform := add_maaku_node_not_fixed t k h0 hfx'
        rw [hbuild, hform]
        have hsm : strip (memo_left t.max_depth (is_fixed t.max_depth t.root).2) =
            strip t.root := by
          rw [strip_memo_left, strip_is_fixed]
        have hhm : heapS (memo_left t.max_depth (is_fixed t.max_depth t.root).2) = true := by
          rw [← heapS_strip, hsm, heapS_strip]; exact hh
        have ham : allLt k (memo_left t.max_depth (is_fixed t.max_depth t.root).2) = true := by
          rw [← allLt_strip, hsm, allLt_strip]; exact ha
        obtain ⟨hH, hW⟩ := add_at_heap t.max_depth
          (msize (memo_left t.max_depth (is_fixed t.max_depth t.root).2))
          (memo_left t.max_depth (is_fixed t.max_depth t.root).2) k le_rfl hhm ham
        refine ⟨hH, ?_⟩
        exact hW (k+1) (Nat.lt_succ_self k)
          (by rw [← allLt_strip, hsm, allLt_strip]
              exact allLt_mono (Nat.le_succ k) _ ha)

theorem childLt_of_allLt {w : Nat} : ∀ {n : MNode}, allLt w n = true →
    childLt w n = true := by
  intro n h
  cases n with
  | nil => rfl
  | node x d f a b =>
    simp only [allLt, Bool.and_eq_true, decide_eq_true_eq] at h
    simp [childLt, h.1.1]

theorem heapOk_of_heapS : ∀ n : MNode, heapS n = true → heapOk n = true := by
  intro n
  induction n with
  | nil => intro _; rfl
  | node w d f a b iha ihb =>
    intro h
    simp only [heapS, Bool.and_eq_true] at h
    obtain ⟨⟨⟨haa, hab⟩, hha⟩, hhb⟩ := h
    simp [heapOk, childLt_of_allLt haa, childLt_of_allLt hab, iha hha, ihb hhb]

/-- C10: after inserting `0..k-1` in increasing order into an initially
empty maaku tree, every node's value strictly exceeds each of its
children's values (the tree is a max-heap on values); the swap-and-descend
insertion and the re-rooting insertion both preserve this. -/
theorem C10_maaku_heap (k : Nat) : heapOk (buildMaaku k).root = true :=
  heapOk_of_heapS _ (maaku_heap k).1
